import Mathlib

/-!
Verification development for the object/string validators of this
repository (`src/lib/types/object.js`, `src/lib/types/string/index.js`).

The JavaScript code is shallowly embedded: JS values become the inductive
`JsValue` (objects are association lists of own enumerable string keys in
insertion order, which is the iteration order `Object.keys` / `for-in`
deliver for non-index keys); the stateful validation pipeline of
`internals.Object.prototype._base` becomes explicit state passing through
one Lean function per loop of the source.  Leaf validators (`any.js` and
friends) are not part of the sources; per the spec's external-interface
contract they are abstracted as functions `value → state-path → options →
{value, errors}` plus their `strip` flag.  Regular expressions are
abstracted as decidable key predicates.  Error label decoration
(`internals.keysToLabels`, which needs the out-of-scope `_getLabel`) is
omitted from error contexts; all claims only inspect raw keys.
-/

abbrev Key := String

/-- JS runtime values, restricted to the universe the claims exercise:
`undefined`, `null`, booleans, numbers, strings and plain objects.
An object's fields are its own enumerable keys in insertion order; a key
present with value `undefV` models a property that exists and holds
`undefined` (distinct from an absent key). -/
inductive JsValue where
  | undefV : JsValue
  | nullV : JsValue
  | boolV : Bool → JsValue
  | num : Int → JsValue
  | str : String → JsValue
  | obj : List (Key × JsValue) → JsValue
deriving Repr

abbrev JsObj := List (Key × JsValue)

/-- `typeof v !== 'undefined'` in boolean form. -/
def JsValue.isUndefV : JsValue → Bool
  | .undefV => true
  | _ => false

/-- Property read `target[k]`: the first binding of `k`, else `undefined`. -/
def objGet (fields : JsObj) (k : Key) : JsValue :=
  match fields.find? (fun kv => kv.1 = k) with
  | some kv => kv.2
  | none => .undefV

/-- `Object.prototype.hasOwnProperty.call(target, k)`. -/
def objHas (fields : JsObj) (k : Key) : Bool :=
  fields.any (fun kv => kv.1 = k)

/-- Property write `target[k] = v`: updates an existing binding in place
(keeping its position), else appends, exactly as JS insertion order does
for non-index keys. -/
def objSet (fields : JsObj) (k : Key) (v : JsValue) : JsObj :=
  if objHas fields k then
    fields.map (fun kv => if kv.1 = k then (k, v) else kv)
  else
    fields ++ [(k, v)]

/-- Property removal `delete target[k]`. -/
def objDelete (fields : JsObj) (k : Key) : JsObj :=
  fields.filter (fun kv => kv.1 ≠ k)

/-- `Hoek.reach(value, path)`: walk a split key path through nested
objects; any miss or non-object intermediate yields `undefined`. -/
def reach : JsValue → List Key → JsValue
  | v, [] => v
  | .obj fields, k :: rest => reach (objGet fields k) rest
  | _, _ :: _ => .undefV

/-- Structured context attached to a created error (the fields the
claims inspect; label-decorated variants are identical to the raw keys
whenever the schema has no children and are omitted from the model). -/
structure ErrContext where
  child : Option Key := none
  peers : List String := []
  present : List String := []
  missing : List String := []
  mainK : Option String := none
  renFrom : Option Key := none
  renFromKeys : List Key := []
  renTo : Option Key := none
deriving Repr, DecidableEq

/-- `this.createError(code, context, state, options)`: an error is its
code, the state path it was created at, and its context. -/
structure JoiError where
  code : String
  epath : List Key
  ctx : ErrContext
deriving Repr, DecidableEq

def mkErr (code : String) (epath : List Key) (ctx : ErrContext) : JoiError :=
  { code := code, epath := epath, ctx := ctx }

/-- The `options.stripUnknown` setting: absent, `true`, or
`{objects: bool}`. -/
inductive StripOpt where
  | offS : StripOpt
  | allS : StripOpt
  | objectsS : Bool → StripOpt
deriving Repr, DecidableEq

/-- The validation options `_base` consults. -/
structure Options where
  abortEarly : Bool := true
  allowUnknown : Bool := false
  stripUnknown : StripOpt := .offS
  skipFunctions : Bool := false
deriving Repr, DecidableEq

/-- `options.stripUnknown` as a truthiness test. -/
def stripOn (o : Options) : Bool := o.stripUnknown ≠ .offS

/-- `options.stripUnknown === true ? true : !!options.stripUnknown.objects`
(with `false` when the option is absent). -/
def stripUnknownEffective (o : Options) : Bool :=
  match o.stripUnknown with
  | .offS => false
  | .allS => true
  | .objectsS b => b

/-- Result of one validation call: `{value, errors}` with `errors: null`
modelled as the empty list. -/
structure SubResult where
  value : JsValue
  errors : List JoiError

/-- A leaf (child / pattern-rule) schema, abstracted to the collaborator
contract the spec states: `validate(value, state, options) → {value,
errors}` (the state reduced to its path) plus the `strip` flag `_base`
reads. -/
structure SubSchema where
  validate : JsValue → List Key → Options → SubResult
  strip : Bool := false

/-- One entry of `_inner.patterns`: the matcher (a regex or key-schema
match, abstracted to a key predicate) and the rule schema. -/
structure Pattern where
  matcher : Key → Bool
  rule : SubSchema

/-- A rename source: a literal key or a regex abstracted to a key
predicate. -/
inductive RenameFrom where
  | lit : Key → RenameFrom
  | pat : (Key → Bool) → RenameFrom

/-- Per-directive rename options (defaults as in `internals.renameDefaults`,
plus `ignoreUndefined`). -/
structure RenameOpts where
  aliasOpt : Bool := false
  multiple : Bool := false
  override : Bool := false
  ignoreUndefined : Bool := false

/-- One entry of `_inner.renames`. -/
structure Rename where
  rfrom : RenameFrom
  rto : Key
  ropts : RenameOpts

/-- The seven dependency constraint kinds of `internals.dependencies`. -/
inductive DepType where
  | withD | withoutD | xorD | oxorD | orD | andD | nandD
deriving Repr, DecidableEq

/-- One entry of `_inner.dependencies`, as `_dependency` stores it: the
type, the split key path (`null` for the peer-only constraints), the
split peer paths paired with the original peer strings, and the original
key and peers kept for error contexts. -/
structure Dep where
  dtype : DepType
  dkey : Option (List Key) := none
  peers : List (List Key × String) := []
  origKey : Option String := none
  origPeers : List String := []

/-- One entry of `_inner.children`: `{key, schema}`. -/
structure ChildSpec where
  key : Key
  schema : SubSchema

/-- The `_inner` state of an object schema that `_base` consults, plus
the `allowUnknown` flag (`none` models an unset flag). -/
structure ObjectSchema where
  children : Option (List ChildSpec) := none
  renames : List Rename := []
  dependencies : List Dep := []
  patterns : List Pattern := []
  allowUnknownFlag : Option Bool := none

/-! ## The rename engine (`_rename`, `src/lib/types/object.js` 637-738)

The JS loop mutates `target`, `errors` and the `renamed` map and can
return `false` (abort).  The embedding threads that state explicitly;
the first component of the result is the returned boolean. -/

/-- One literal-source rename directive (lines 641-679). -/
def renameStepLit (o : Options) (path : List Key) (ro : RenameOpts)
    (fromK toK : Key) (renamed : List Key) (t : JsObj) (es : List JoiError) :
    Bool × List Key × JsObj × List JoiError :=
  if ro.ignoreUndefined && (objGet t fromK).isUndefV then
    (true, renamed, t, es)
  else
    let multViol := !ro.multiple && renamed.contains toK
    let es1 := if multViol then
        es ++ [mkErr "object.rename.multiple" path
          { renFrom := some fromK, renTo := some toK }] else es
    if multViol && o.abortEarly then (false, renamed, t, es1)
    else
      let ovViol := objHas t toK && !ro.override && !renamed.contains toK
      let es2 := if ovViol then
          es1 ++ [mkErr "object.rename.override" path
            { renFrom := some fromK, renTo := some toK }] else es1
      if ovViol && o.abortEarly then (false, renamed, t, es2)
      else
        let t1 := if (objGet t fromK).isUndefV then objDelete t toK
                  else objSet t toK (objGet t fromK)
        let renamed1 := toK :: renamed
        let t2 := if !ro.aliasOpt then objDelete t1 fromK else t1
        (true, renamed1, t2, es2)

/-- One regex-source rename directive (lines 680-734); the regex is the
abstracted key predicate `test`. -/
def renameStepPat (o : Options) (path : List Key) (ro : RenameOpts)
    (test : Key → Bool) (toK : Key) (renamed : List Key) (t : JsObj)
    (es : List JoiError) : Bool × List Key × JsObj × List JoiError :=
  let matched := (t.map Prod.fst).filter test
  let allUndefined := matched.all (fun k => (objGet t k).isUndefV)
  if ro.ignoreUndefined && allUndefined then
    (true, renamed, t, es)
  else
    let multViol := !ro.multiple && renamed.contains toK
    let es1 := if multViol then
        es ++ [mkErr "object.rename.regex.multiple" path
          { renFromKeys := matched, renTo := some toK }] else es
    if multViol && o.abortEarly then (false, renamed, t, es1)
    else
      let ovViol := objHas t toK && !ro.override && !renamed.contains toK
      let es2 := if ovViol then
          es1 ++ [mkErr "object.rename.regex.override" path
            { renFromKeys := matched, renTo := some toK }] else es1
      if ovViol && o.abortEarly then (false, renamed, t, es2)
      else
        let t1 := if allUndefined then objDelete t toK
                  else match matched.getLast? with
                       | some lastK => objSet t toK (objGet t lastK)
                       | none => t
        let renamed1 := toK :: renamed
        let t2 := if !ro.aliasOpt then
            matched.foldl (fun acc k => if k = toK then acc else objDelete acc k) t1
          else t1
        (true, renamed1, t2, es2)

/-- The `_rename` directive loop; `renamed` accumulates the targets
already written this call. -/
def renameLoop (o : Options) (path : List Key) :
    List Rename → List Key → JsObj → List JoiError →
    Bool × JsObj × List JoiError
  | [], _, t, es => (true, t, es)
  | r :: rest, renamed, t, es =>
    let step := match r.rfrom with
      | .lit fromK => renameStepLit o path r.ropts fromK r.rto renamed t es
      | .pat test => renameStepPat o path r.ropts test r.rto renamed t es
    match step with
    | (false, _, t1, es1) => (false, t1, es1)
    | (true, renamed1, t1, es1) => renameLoop o path rest renamed1 t1 es1

/-! ## The declared-children walk (`_base` lines 126-166) -/

/-- The mutable state of the children loop: the working copy, the
`unprocessed` key set (as the ordered key list), the error accumulator
and the `strips` list. -/
structure ChState where
  target : JsObj
  unprocessed : List Key
  errors : List JoiError
  strips : List Key

/-- One pass over `this._inner.children`; the boolean is `false` when
the loop returned `finish()` early under `abortEarly` (in which case the
pending strips are NOT applied, exactly as in the source). -/
def childrenLoop (o : Options) (path : List Key) :
    List ChildSpec → ChState → Bool × ChState
  | [], st => (true, st)
  | c :: rest, st =>
    let item := objGet st.target c.key
    let unp := st.unprocessed.filter (fun k => k ≠ c.key)
    let res := c.schema.validate item (path ++ [c.key]) o
    if res.errors.isEmpty then
      let ts :=
        if c.schema.strip || (res.value.isUndefV && !item.isUndefV) then
          -- `strips.push(key); target[key] = result.outcome` (an absent
          -- field of the leaf result, i.e. `undefined`)
          (objSet st.target c.key .undefV, st.strips ++ [c.key])
        else if !res.value.isUndefV then
          (objSet st.target c.key res.value, st.strips)
        else (st.target, st.strips)
      let strips1 := if c.schema.strip then ts.2 ++ [c.key] else ts.2
      childrenLoop o path rest ⟨ts.1, unp, st.errors, strips1⟩
    else
      let es := st.errors ++ res.errors
      if o.abortEarly then (false, ⟨st.target, unp, es, st.strips⟩)
      else
        let strips1 := if c.schema.strip then st.strips ++ [c.key] else st.strips
        childrenLoop o path rest ⟨st.target, unp, es, strips1⟩

/-! ## The pattern walk (`_base` lines 170-199) -/

/-- The inner `for (let i = 0; ...)` over the declared patterns for one
unprocessed key; the last component records whether any pattern matched
(the source deletes the key from `unprocessed` at each match).  Note the
source has no `break`: every matching pattern's rule runs against `item`
(the value read before the loop) and unconditionally writes its result
back, unless an error aborts under `abortEarly` (before that write). -/
def patternInner (o : Options) (path : List Key) (key : Key) (item : JsValue) :
    List Pattern → JsObj → List JoiError → Bool →
    Bool × JsObj × List JoiError × Bool
  | [], t, es, matched => (true, t, es, matched)
  | p :: rest, t, es, matched =>
    if p.matcher key then
      let res := p.rule.validate item (path ++ [key]) o
      let es1 := es ++ res.errors
      if !res.errors.isEmpty && o.abortEarly then (false, t, es1, true)
      else patternInner o path key item rest (objSet t key res.value) es1 true
    else patternInner o path key item rest t es matched

/-- The outer `for (const key of unprocessed)` (iterated over the
snapshot of the set; only the current key is ever deleted, so the live
iteration and the snapshot coincide). -/
def patternsLoop (o : Options) (path : List Key) (ps : List Pattern) :
    List Key → JsObj → List Key → List JoiError →
    Bool × JsObj × List Key × List JoiError
  | [], t, unp, es => (true, t, unp, es)
  | k :: krest, t, unp, es =>
    let inner := patternInner o path k (objGet t k) ps t es false
    let unp1 := if inner.2.2.2 then unp.filter (fun u => u ≠ k) else unp
    match inner with
    | (false, t1, es1, _) => (false, t1, unp1, es1)
    | (true, t1, es1, _) => patternsLoop o path ps krest t1 unp1 es1

/-! ## Unknown keys (`_base` lines 201-230) -/

/-- The unknown-key section (its outer gate is applied by the caller).
In the modelled value universe no value is callable, so the
`skipFunctions` exemption never removes a key.  Note the source pushes
one `object.allowUnknown` error per remaining key with NO `abortEarly`
check. -/
def unknownPhase (s : ObjectSchema) (o : Options) (path : List Key)
    (t : JsObj) (unp : List Key) (es : List JoiError) :
    JsObj × List Key × List JoiError :=
  let tu :=
    if (stripOn o && s.allowUnknownFlag ≠ some true) || o.skipFunctions then
      if stripUnknownEffective o then (unp.foldl objDelete t, ([] : List Key))
      else (t, unp)
    else (t, unp)
  let forbid := !(s.allowUnknownFlag.getD o.allowUnknown)
  let es1 := if forbid then
      es ++ tu.2.map (fun k => mkErr "object.allowUnknown" (path ++ [k])
        { child := some k })
    else es
  (tu.1, tu.2, es1)

/-! ## The dependency evaluator (`internals.dependencies`, lines 832-997) -/

/-- The `failed` record a dependency method returns: its code and the
context data (label-decorated copies omitted, see the header note). -/
structure DepFail where
  code : String
  peers : List String := []
  present : List String := []
  missing : List String := []
  mainK : Option String := none
deriving Repr, DecidableEq

/-- The `present` list a peers walk accumulates: the original peer
string of every peer path that reaches a defined value. -/
def presentPeers (t : JsObj) (peers : List (List Key × String)) : List String :=
  peers.filterMap (fun p => if (reach (.obj t) p.1).isUndefV then none else some p.2)

/-- `internals.dependencies[dep.type](schema, dep, keyValue, target)`
(the schema argument is only used for the omitted label decoration). -/
def depFailed (d : Dep) (value : JsValue) (t : JsObj) : Option DepFail :=
  match d.dtype with
  | .withD =>
    if value.isUndefV then none
    else match d.peers.find? (fun p => (reach (.obj t) p.1).isUndefV) with
      | none => none
      | some p => some { code := "object.with", mainK := d.origKey, peers := [p.2] }
  | .withoutD =>
    if value.isUndefV then none
    else match d.peers.find? (fun p => !(reach (.obj t) p.1).isUndefV) with
      | none => none
      | some p => some { code := "object.without", mainK := d.origKey, peers := [p.2] }
  | .xorD =>
    let present := presentPeers t d.peers
    if present.length = 1 then none
    else if present.length = 0 then
      some { code := "object.missing", peers := d.origPeers }
    else
      some { code := "object.xor", peers := d.origPeers, present := present }
  | .oxorD =>
    let present := presentPeers t d.peers
    if present.length ≤ 1 then none
    else some { code := "object.oxor", peers := d.origPeers, present := present }
  | .orD =>
    if d.peers.any (fun p => !(reach (.obj t) p.1).isUndefV) then none
    else some { code := "object.missing", peers := d.origPeers }
  | .andD =>
    let present := presentPeers t d.peers
    let missing := d.peers.filterMap
      (fun p => if (reach (.obj t) p.1).isUndefV then some p.2 else none)
    if missing.length = d.peers.length ∨ present.length = d.peers.length then none
    else some { code := "object.and", present := present, missing := missing }
  | .nandD =>
    let present := presentPeers t d.peers
    if present.length ≠ d.peers.length then none
    else some { code := "object.nand", mainK := d.origPeers.head?,
                peers := d.origPeers.drop 1 }

/-- The error `_base` creates from a failed dependency: the local state
is `path ++ key` for keyed constraints and the object's own path
otherwise (lines 241-242). -/
def depError (path : List Key) (d : Dep) (f : DepFail) : JoiError :=
  { code := f.code,
    epath := match d.dkey with | some ks => path ++ ks | none => path,
    ctx := { peers := f.peers, present := f.present, missing := f.missing,
             mainK := f.mainK } }

/-- `const keyValue = key && Hoek.reach(target, key, ...)` (lines
234-239); a `null` key reaches nothing and every keyless constraint
ignores the value. -/
def depKeyValue (d : Dep) (t : JsObj) : JsValue :=
  match d.dkey with
  | some ks => reach (.obj t) ks
  | none => .undefV

/-- The dependency loop (lines 234-247). -/
def depsLoop (o : Options) (path : List Key) (t : JsObj) :
    List Dep → List JoiError → Bool × List JoiError
  | [], es => (true, es)
  | d :: rest, es =>
    match depFailed d (depKeyValue d t) t with
    | none => depsLoop o path t rest es
    | some f =>
      let es1 := es ++ [depError path d f]
      if o.abortEarly then (false, es1) else depsLoop o path t rest es1

/-! ## `_base` (lines 58-250) -/

/-- `{value, errors}` as `finish()` returns it (`errors: null` is the
empty list). -/
structure BaseResult where
  value : JsValue
  errors : List JoiError

/-- `internals.Object.prototype._base(value, state, options)` for the
plain-object flavor (`_flags.func` unset): the type gate, the fast path,
the shallow copy (an association-list value needs no explicit copy), the
rename pass, the declared-children walk with its strip postprocessing,
the pattern walk, the unknown-key policy and the dependency checks, each
with the early `finish()` returns of the source. -/
def objBase (s : ObjectSchema) (path : List Key) (o : Options)
    (value : JsValue) : BaseResult :=
  match value with
  | .obj fields =>
    if s.renames.isEmpty && s.dependencies.isEmpty && s.children.isNone
        && s.patterns.isEmpty then
      { value := .obj fields, errors := [] }
    else
      match renameLoop o path s.renames [] fields [] with
      | (false, t, es) => { value := .obj t, errors := es }
      | (true, t, es) =>
        if s.children.isNone && s.patterns.isEmpty && s.dependencies.isEmpty then
          { value := .obj t, errors := es }
        else
          let st0 : ChState := ⟨t, t.map Prod.fst, es, []⟩
          let ch := match s.children with
            | none => (true, st0)
            | some cs => childrenLoop o path cs st0
          if !ch.1 then { value := .obj ch.2.target, errors := ch.2.errors }
          else
            let t1 := ch.2.strips.foldl objDelete ch.2.target
            let pl :=
              if !ch.2.unprocessed.isEmpty && !s.patterns.isEmpty then
                patternsLoop o path s.patterns ch.2.unprocessed t1
                  ch.2.unprocessed ch.2.errors
              else (true, t1, ch.2.unprocessed, ch.2.errors)
            match pl with
            | (false, t2, _, es2) => { value := .obj t2, errors := es2 }
            | (true, t2, unp2, es2) =>
              let uk :=
                if !unp2.isEmpty && (s.children.isSome || !s.patterns.isEmpty) then
                  unknownPhase s o path t2 unp2 es2
                else (t2, unp2, es2)
              let dl := depsLoop o path uk.1 s.dependencies uk.2.2
              { value := .obj uk.1, errors := dl.2 }
  | v => { value := v, errors := [mkErr "object.base" path {}] }

/-! ## `keys()` and the key topology (lines 358-409)

`keys()` feeds a `@hapi/topo` `Sorter`: surviving existing children
first, then every field of the new map, each added with
`{after: castSchema._refs.roots(), group: key}`.  The only datum of a
child that the ordering consults is that root set, so a child
declaration is abstracted to its key plus reference roots. -/

/-- A child declaration as the topology sees it: its key and the root
keys of the sibling references reachable from its cast schema
(`cast._refs.roots()`). -/
structure ChildDecl where
  key : Key
  refRoots : List Key
deriving Repr, DecidableEq

/-- Modelled from the spec: the `@hapi/topo` `Sorter` (a dependency whose
source is not part of this repository).  Per §4.1 each item is
"constrained to come after every field whose key is a reference root
reachable from X's schema" and otherwise keeps its insertion order
("brand-new keys are inserted respecting their after edges"): an item is
ready when each of its `after` roots either names no item group at all
(edges into absent groups are dropped) or was already emitted. -/
def itemReady (allKeys done : List Key) (c : ChildDecl) : Bool :=
  c.refRoots.all (fun r => !(decide (r ∈ allKeys)) || decide (r ∈ done))

/-- The first ready item of the pending list, and the pending list with
that item removed. -/
def pickReady (allKeys done : List Key) :
    List ChildDecl → Option (ChildDecl × List ChildDecl)
  | [] => none
  | c :: rest =>
    if itemReady allKeys done c then some (c, rest)
    else match pickReady allKeys done rest with
      | some p => some (p.1, c :: p.2)
      | none => none

/-- Modelled from the spec: the sorter loop — repeatedly emit the first
ready pending item; when none is ready the remaining items form a
reference cycle and the sorter reports an error (`none`; `keys()` turns
it into a thrown build error). -/
def topoGo (allKeys : List Key) :
    Nat → List ChildDecl → List ChildDecl → Option (List ChildDecl)
  | 0, pending, acc => if pending.isEmpty then some acc.reverse else none
  | fuel + 1, pending, acc =>
    if pending.isEmpty then some acc.reverse
    else match pickReady allKeys (acc.map (fun c => c.key)) pending with
      | none => none
      | some p => topoGo allKeys fuel p.2 (p.1 :: acc)

/-- Modelled from the spec: `new Topo()` fed by successive `add` calls
in list order, then `topo.nodes`. -/
def topoSort (items : List ChildDecl) : Option (List ChildDecl) :=
  topoGo (items.map (fun c => c.key)) items.length items []

/-- The item sequence `keys()` feeds to the sorter: existing children
whose key is not re-declared (lines 377-386, in their current order),
then the fields of the new map in declaration order (lines 388-405). -/
def keysItems (old : Option (List ChildDecl)) (m : List ChildDecl) :
    List ChildDecl :=
  (match old with
   | none => []
   | some cs => cs.filter (fun c => !((m.map (fun d => d.key)).contains c.key)))
  ++ m

/-- `keys(schema)` (lines 358-409) restricted to its effect on
`_inner.children`: a `null`/`undefined` argument resets children to
`null`, an empty map to `[]`, and otherwise the topology rebuild runs
(`none` models the thrown cycle assertion). -/
def keysOp (old : Option (List ChildDecl)) (m : Option (List ChildDecl)) :
    Option (Option (List ChildDecl)) :=
  match m with
  | none => some none
  | some mm =>
    if mm.isEmpty then some (some [])
    else (topoSort (keysItems old mm)).map some

/-! ## The string truncation coercion (`src/lib/types/string/index.js`)

Only the claim-relevant slice of `_coerce` is modelled: a schema whose
coercion-affecting configuration is the `truncate` flag and at most one
`max` length rule (the other `_coerce` steps — normalize, case, trim,
replacements, hex padding, isoDate — are absent from such a schema and
are identity there).  JS strings are modelled as `List Char` (code
points; on astral-free strings JS's UTF-16 indices coincide). -/

/-- A byte-length encoding accepted by `Buffer.isEncoding`; the model
covers `utf8`. -/
inductive StrEncoding where
  | utf8 : StrEncoding
deriving Repr, DecidableEq

/-- The stored arguments of a `max(limit, encoding)` rule
(`_length`, lines 462-475). -/
structure StrMax where
  limit : Nat
  encoding : Option StrEncoding := none
deriving Repr, DecidableEq

/-- The string-schema state the modelled coercion reads: the `truncate`
flag and `this._uniqueRules.get('max')`. -/
structure StringSchemaM where
  truncate : Bool := false
  maxRule : Option StrMax := none

/-- The length the `length` rule measures (lines 635-637):
`Buffer.byteLength(value, encoding)` under an encoding, else the
character count `value.length`. -/
def strMeasuredLength (encoding : Option StrEncoding) (v : List Char) : Nat :=
  match encoding with
  | some .utf8 => (v.map Char.utf8Size).sum
  | none => v.length

/-- The `max` rule's test (lines 635-643 with operator `<=`). -/
def stringMaxOk (r : StrMax) (v : List Char) : Bool :=
  strMeasuredLength r.encoding v ≤ r.limit

/-- The truncation step of `_coerce` (lines 120-127):
`value = value.slice(0, rule.args.limit)` — a character-count slice,
taken from the `max` rule's `limit` with the rule's `encoding` ignored
(the `BUG - issue 1826` comment in the source). -/
def stringCoerce (s : StringSchemaM) (v : List Char) : List Char :=
  if s.truncate then
    match s.maxRule with
    | some r => v.take r.limit
    | none => v
  else v

/-! ## Concrete leaf schemas used by the claim witnesses -/

/-- A leaf accepting any value unchanged (`Joi.any()` on success). -/
def anyLeaf : SubSchema := { validate := fun v _ _ => ⟨v, []⟩ }

/-- A leaf that always fails with one error of the given code at its
state path, leaving the value unchanged. -/
def errLeaf (code : String) : SubSchema :=
  { validate := fun v p _ => ⟨v, [mkErr code p {}]⟩ }

/-- A failing leaf whose result value is `out` (a leaf whose coercion
produced `out` before its rules failed). -/
def errValLeaf (code : String) (out : JsValue) : SubSchema :=
  { validate := fun _ p _ => ⟨out, [mkErr code p {}]⟩ }

/-- A strip-flagged leaf that always fails. -/
def stripErrLeaf (code : String) : SubSchema :=
  { validate := fun v p _ => ⟨v, [mkErr code p {}]⟩, strip := true }

/-- The dependency record `xor(a, b)` stores (`_dependency`, lines
583-621, with the default `.` separator). -/
def xorDependency (a b : String) : Dep :=
  { dtype := .xorD, dkey := none,
    peers := [(a.splitOn ".", a), (b.splitOn ".", b)], origPeers := [a, b] }

/-- An object schema whose only constraint is `xor(a, b)`. -/
def xorSchema (a b : String) : ObjectSchema :=
  { dependencies := [xorDependency a b] }

/-- The schema `rename(f, t, {alias: true, override: true})` builds. -/
def renameAliasSchema (f t : Key) : ObjectSchema :=
  { renames := [{ rfrom := .lit f, rto := t,
                  ropts := { aliasOpt := true, override := true } }] }

/-- The schema of P6: only the field `a` declared (with an
accept-anything leaf), plus an optional `allowUnknown` flag. -/
def onlyASchema (flag : Option Bool) : ObjectSchema :=
  { children := some [⟨"a", anyLeaf⟩], allowUnknownFlag := flag }

/-- The index of the first child with the given key. -/
def keyIdx : List ChildDecl → Key → Nat
  | [], _ => 0
  | c :: rest, k => if c.key = k then 0 else keyIdx rest k + 1

/-- Along the emitted sequence, every reference root (that names any
item at all) of each item lies among the keys emitted before it. -/
def topoRespectsAux (allKeys : List Key) : List Key → List ChildDecl → Prop
  | _, [] => True
  | done, c :: rest =>
    (∀ r ∈ c.refRoots, r ∈ allKeys → r ∈ done) ∧
    topoRespectsAux allKeys (c.key :: done) rest

/-! ## Pipeline views of one `_base` run (used to state the aggregation
and write-back claims): each `Run` is exactly the state `objBase`
threads between its phases. -/

/-- The rename-phase run on an object input. -/
def renameRun (s : ObjectSchema) (path : List Key) (o : Options)
    (fields : JsObj) : Bool × JsObj × List JoiError :=
  renameLoop o path s.renames [] fields []

/-- The declared children (`null` behaves as no children to walk). -/
def childrenOf (s : ObjectSchema) : List ChildSpec := s.children.getD []

/-- The children-walk run, on the post-rename state. -/
def childrenRun (s : ObjectSchema) (path : List Key) (o : Options)
    (fields : JsObj) : Bool × ChState :=
  childrenLoop o path (childrenOf s)
    ⟨(renameRun s path o fields).2.1,
     (renameRun s path o fields).2.1.map Prod.fst,
     (renameRun s path o fields).2.2, []⟩

/-- The working copy after the strip deletions. -/
def strippedRun (s : ObjectSchema) (path : List Key) (o : Options)
    (fields : JsObj) : JsObj :=
  (childrenRun s path o fields).2.strips.foldl objDelete
    (childrenRun s path o fields).2.target

/-- The pattern-walk run (with its gate). -/
def patternsRun (s : ObjectSchema) (path : List Key) (o : Options)
    (fields : JsObj) : Bool × JsObj × List Key × List JoiError :=
  if !(childrenRun s path o fields).2.unprocessed.isEmpty
      && !s.patterns.isEmpty then
    patternsLoop o path s.patterns (childrenRun s path o fields).2.unprocessed
      (strippedRun s path o fields) (childrenRun s path o fields).2.unprocessed
      (childrenRun s path o fields).2.errors
  else
    (true, strippedRun s path o fields,
     (childrenRun s path o fields).2.unprocessed,
     (childrenRun s path o fields).2.errors)

/-- The unknown-key phase run (with its gate). -/
def unknownRun (s : ObjectSchema) (path : List Key) (o : Options)
    (fields : JsObj) : JsObj × List Key × List JoiError :=
  if !(patternsRun s path o fields).2.2.1.isEmpty
      && (s.children.isSome || !s.patterns.isEmpty) then
    unknownPhase s o path (patternsRun s path o fields).2.1
      (patternsRun s path o fields).2.2.1 (patternsRun s path o fields).2.2.2
  else
    ((patternsRun s path o fields).2.1, (patternsRun s path o fields).2.2.1,
     (patternsRun s path o fields).2.2.2)

/-- The errors the unknown-key section appends for a given leftover key
set (the same computation `unknownPhase` performs, named for the
aggregation statement). -/
def unknownNewErrs (s : ObjectSchema) (o : Options) (path : List Key)
    (unp : List Key) : List JoiError :=
  let unp2 :=
    if (stripOn o && s.allowUnknownFlag ≠ some true) || o.skipFunctions then
      if stripUnknownEffective o then ([] : List Key) else unp
    else unp
  if !(s.allowUnknownFlag.getD o.allowUnknown) then
    unp2.map (fun k => mkErr "object.allowUnknown" (path ++ [k])
      { child := some k })
  else []

theorem isUndef_iff (v : JsValue) : v.isUndefV = true ↔ v = .undefV := by
  cases v <;> simp [JsValue.isUndefV]

theorem objGet_nil (k : Key) : objGet [] k = .undefV := rfl

theorem objGet_cons (kv : Key × JsValue) (rest : JsObj) (k : Key) :
    objGet (kv :: rest) k = if kv.1 = k then kv.2 else objGet rest k := by
  by_cases h : kv.1 = k
  · simp [objGet, List.find?, h]
  · simp [objGet, List.find?, h]

theorem objHas_cons (kv : Key × JsValue) (rest : JsObj) (k : Key) :
    objHas (kv :: rest) k = (decide (kv.1 = k) || objHas rest k) := by
  simp [objHas]

theorem objDelete_nil (k : Key) : objDelete [] k = [] := rfl

theorem objDelete_cons (kv : Key × JsValue) (rest : JsObj) (k : Key) :
    objDelete (kv :: rest) k =
      if kv.1 = k then objDelete rest k else kv :: objDelete rest k := by
  by_cases h : kv.1 = k <;> simp [objDelete, List.filter_cons, h]

theorem objHas_iff_mem_keys (l : JsObj) (k : Key) :
    objHas l k = true ↔ k ∈ l.map Prod.fst := by
  simp only [objHas, List.any_eq_true, decide_eq_true_eq, List.mem_map]

theorem keys_objSet (l : JsObj) (k : Key) (v : JsValue) :
    (objSet l k v).map Prod.fst =
      if objHas l k then l.map Prod.fst else l.map Prod.fst ++ [k] := by
  unfold objSet
  by_cases h : objHas l k = true
  · simp only [h, if_true, List.map_map]
    have hf : (Prod.fst ∘ fun kv : Key × JsValue => if kv.1 = k then (k, v) else kv)
        = Prod.fst := by
      funext kv; by_cases hk : kv.1 = k <;> simp [hk]
    simp [hf]
  · simp [h]

theorem keys_objDelete (l : JsObj) (k : Key) :
    (objDelete l k).map Prod.fst = (l.map Prod.fst).filter (fun x => x ≠ k) := by
  induction l with
  | nil => rfl
  | cons kv rest ih =>
    rw [objDelete_cons]
    by_cases h : kv.1 = k <;> simp [h, List.filter_cons, ih]

theorem objGet_updMap_ne (k k' : Key) (v : JsValue) (h : k' ≠ k) :
    ∀ l : JsObj,
      objGet (l.map (fun kv => if kv.1 = k then (k, v) else kv)) k' = objGet l k' := by
  intro l
  induction l with
  | nil => rfl
  | cons kv rest ih =>
    by_cases hk : kv.1 = k
    · rw [List.map_cons, if_pos hk, objGet_cons, objGet_cons]
      rw [if_neg (by simpa using Ne.symm h), if_neg (by rw [hk]; exact Ne.symm h)]
      exact ih
    · rw [List.map_cons, if_neg hk, objGet_cons, objGet_cons]
      by_cases hk' : kv.1 = k'
      · rw [if_pos hk', if_pos hk']
      · rw [if_neg hk', if_neg hk']
        exact ih

theorem objGet_updMap_self (k : Key) (v : JsValue) :
    ∀ l : JsObj, objHas l k = true →
      objGet (l.map (fun kv => if kv.1 = k then (k, v) else kv)) k = v := by
  intro l
  induction l with
  | nil => intro h; simp [objHas] at h
  | cons kv rest ih =>
    intro h
    by_cases hk : kv.1 = k
    · rw [List.map_cons, if_pos hk, objGet_cons, if_pos rfl]
    · rw [objHas_cons] at h
      have h' : objHas rest k = true := by
        rcases Bool.or_eq_true_iff.mp h with h0 | h0
        · exact absurd (of_decide_eq_true h0) hk
        · exact h0
      rw [List.map_cons, if_neg hk, objGet_cons, if_neg hk]
      exact ih h'

theorem objGet_append_ne (l : JsObj) (k k' : Key) (v : JsValue) (h : k' ≠ k) :
    objGet (l ++ [(k, v)]) k' = objGet l k' := by
  induction l with
  | nil => simp [objGet_cons, Ne.symm h, objGet_nil]
  | cons kv rest ih =>
    rw [List.cons_append, objGet_cons, objGet_cons]
    by_cases hk' : kv.1 = k'
    · rw [if_pos hk', if_pos hk']
    · rw [if_neg hk', if_neg hk']
      exact ih

theorem objGet_append_self (l : JsObj) (k : Key) (v : JsValue)
    (h : objHas l k = false) : objGet (l ++ [(k, v)]) k = v := by
  induction l with
  | nil => simp [objGet_cons]
  | cons kv rest ih =>
    rw [objHas_cons] at h
    have hk : ¬ kv.1 = k := by
      intro he; simp [he] at h
    have h' : objHas rest k = false := by
      rcases Bool.or_eq_false_iff.mp h with ⟨_, h0⟩
      exact h0
    rw [List.cons_append, objGet_cons, if_neg hk]
    exact ih h'

theorem objGet_objSet_self (l : JsObj) (k : Key) (v : JsValue) :
    objGet (objSet l k v) k = v := by
  unfold objSet
  by_cases h : objHas l k = true
  · rw [if_pos h]
    exact objGet_updMap_self k v l h
  · rw [if_neg h]
    exact objGet_append_self l k v (Bool.not_eq_true _ ▸ h)

theorem objGet_objSet_ne (l : JsObj) (k k' : Key) (v : JsValue) (h : k' ≠ k) :
    objGet (objSet l k v) k' = objGet l k' := by
  unfold objSet
  by_cases hh : objHas l k = true
  · rw [if_pos hh]
    exact objGet_updMap_ne k k' v h l
  · rw [if_neg hh]
    exact objGet_append_ne l k k' v h

theorem objGet_objDelete_ne (l : JsObj) (k k' : Key) (h : k' ≠ k) :
    objGet (objDelete l k) k' = objGet l k' := by
  induction l with
  | nil => rfl
  | cons kv rest ih =>
    rw [objDelete_cons, objGet_cons]
    by_cases hk : kv.1 = k
    · rw [if_pos hk, if_neg (by rw [hk]; exact Ne.symm h)]
      exact ih
    · rw [if_neg hk, objGet_cons]
      by_cases hk' : kv.1 = k'
      · rw [if_pos hk', if_pos hk']
      · rw [if_neg hk', if_neg hk']
        exact ih

theorem objHas_objDelete_self (l : JsObj) (k : Key) :
    objHas (objDelete l k) k = false := by
  rw [← Bool.not_eq_true, objHas_iff_mem_keys, keys_objDelete]
  simp

theorem objHas_objDelete_mono (l : JsObj) (k k' : Key) (h : objHas l k' = false) :
    objHas (objDelete l k) k' = false := by
  rw [← Bool.not_eq_true, objHas_iff_mem_keys, keys_objDelete]
  intro hmem
  have hl : k' ∈ l.map Prod.fst := List.mem_of_mem_filter hmem
  have := (objHas_iff_mem_keys l k').mpr hl
  rw [this] at h
  simp at h

theorem objHas_objSet_mono (l : JsObj) (k k' : Key) (v : JsValue)
    (h : objHas l k' = false) (hne : k' ≠ k) :
    objHas (objSet l k v) k' = false := by
  rw [← Bool.not_eq_true, objHas_iff_mem_keys, keys_objSet]
  by_cases hh : objHas l k = true
  · rw [if_pos hh]
    intro hmem
    have := (objHas_iff_mem_keys l k').mpr hmem
    rw [this] at h; simp at h
  · rw [if_neg hh]
    intro hmem
    rcases List.mem_append.mp hmem with hm | hm
    · have := (objHas_iff_mem_keys l k').mpr hm
      rw [this] at h; simp at h
    · simp at hm; exact hne hm

theorem keys_nodup_objSet (l : JsObj) (k : Key) (v : JsValue)
    (h : (l.map Prod.fst).Nodup) : ((objSet l k v).map Prod.fst).Nodup := by
  rw [keys_objSet]
  by_cases hh : objHas l k = true
  · simpa [hh]
  · have hk : ¬ k ∈ l.map Prod.fst := fun hm =>
      hh ((objHas_iff_mem_keys l k).mpr hm)
    simp [hh, List.nodup_append, h, hk]

theorem keys_nodup_objDelete (l : JsObj) (k : Key)
    (h : (l.map Prod.fst).Nodup) : ((objDelete l k).map Prod.fst).Nodup := by
  rw [keys_objDelete]
  exact h.filter _

/-- C8: with the `truncate` flag and a `max(limit, encoding)` rule,
string coercion slices the first `limit` characters; the slice is
character-based even when the rule's encoding measures bytes, so the
truncated value can still violate the byte-measured `max`. -/
theorem claim8_truncate_chars (s : StringSchemaM) (r : StrMax) (v : List Char)
    (ht : s.truncate = true) (hm : s.maxRule = some r) :
    stringCoerce s v = v.take r.limit ∧
    (stringCoerce s v).length = min r.limit v.length ∧
    ∃ w : List Char, ∃ lim : Nat,
      (stringCoerce ⟨true, some ⟨lim, some .utf8⟩⟩ w).length ≤ lim ∧
      stringMaxOk ⟨lim, some .utf8⟩
        (stringCoerce ⟨true, some ⟨lim, some .utf8⟩⟩ w) = false := by
  refine ⟨by simp [stringCoerce, ht, hm], ?_, ⟨['é'], 1, by decide, by decide⟩⟩
  simp [stringCoerce, ht, hm]

theorem claim8_witness :
    stringCoerce ⟨true, some ⟨2, some .utf8⟩⟩ ['a', 'b', 'c']
        = List.take 2 ['a', 'b', 'c'] ∧
    (stringCoerce ⟨true, some ⟨2, some .utf8⟩⟩ ['a', 'b', 'c']).length
        = min 2 (List.length ['a', 'b', 'c']) ∧
    ∃ w : List Char, ∃ lim : Nat,
      (stringCoerce ⟨true, some ⟨lim, some .utf8⟩⟩ w).length ≤ lim ∧
      stringMaxOk ⟨lim, some .utf8⟩
        (stringCoerce ⟨true, some ⟨lim, some .utf8⟩⟩ w) = false :=
  claim8_truncate_chars ⟨true, some ⟨2, some .utf8⟩⟩ ⟨2, some .utf8⟩
    ['a', 'b', 'c'] rfl rfl

/-- C6: an `xor(a, b)` dependency yields an `object.xor` conflict error
naming both present peers when both peer paths resolve to defined
values, an `object.missing` error listing both peers when neither does,
and no error when exactly one does. -/
theorem claim6_xor (a b : String) (path : List Key) (o : Options)
    (fields : JsObj) :
    ((reach (.obj fields) (a.splitOn ".")).isUndefV = false →
     (reach (.obj fields) (b.splitOn ".")).isUndefV = false →
     (objBase (xorSchema a b) path o (.obj fields)).errors
       = [mkErr "object.xor" path { peers := [a, b], present := [a, b] }]) ∧
    ((reach (.obj fields) (a.splitOn ".")).isUndefV = true →
     (reach (.obj fields) (b.splitOn ".")).isUndefV = true →
     (objBase (xorSchema a b) path o (.obj fields)).errors
       = [mkErr "object.missing" path { peers := [a, b] }]) ∧
    ((reach (.obj fields) (a.splitOn ".")).isUndefV
        ≠ (reach (.obj fields) (b.splitOn ".")).isUndefV →
     (objBase (xorSchema a b) path o (.obj fields)).errors = []) := by
  refine ⟨fun ha hb => ?_, fun ha hb => ?_, fun hne => ?_⟩
  · simp only [objBase, xorSchema, renameLoop, depsLoop, depFailed, depKeyValue,
      xorDependency, presentPeers, depError, mkErr]
    simp [ha, hb]
    split <;> rfl
  · simp only [objBase, xorSchema, renameLoop, depsLoop, depFailed, depKeyValue,
      xorDependency, presentPeers, depError, mkErr]
    simp [ha, hb]
    split <;> rfl
  · cases ha : (reach (.obj fields) (a.splitOn ".")).isUndefV
    · have hb : (reach (.obj fields) (b.splitOn ".")).isUndefV = true := by
        cases hx : (reach (.obj fields) (b.splitOn ".")).isUndefV
        · rw [ha, hx] at hne; exact absurd rfl hne
        · rfl
      simp only [objBase, xorSchema, renameLoop, depsLoop, depFailed, depKeyValue,
        xorDependency, presentPeers, depError, mkErr]
      simp [ha, hb]
    · have hb : (reach (.obj fields) (b.splitOn ".")).isUndefV = false := by
        cases hx : (reach (.obj fields) (b.splitOn ".")).isUndefV
        · rfl
        · rw [ha, hx] at hne; exact absurd rfl hne
      simp only [objBase, xorSchema, renameLoop, depsLoop, depFailed, depKeyValue,
        xorDependency, presentPeers, depError, mkErr]
      simp [ha, hb]

theorem claim6_witness :
    ((reach (.obj [("a", .num 1), ("b", .num 2)])
        (("a" : String).splitOn ".")).isUndefV = false →
     (reach (.obj [("a", .num 1), ("b", .num 2)])
        (("b" : String).splitOn ".")).isUndefV = false →
     (objBase (xorSchema "a" "b") [] {}
        (.obj [("a", .num 1), ("b", .num 2)])).errors
       = [mkErr "object.xor" [] { peers := ["a", "b"], present := ["a", "b"] }]) ∧
    ((reach (.obj [("a", .num 1), ("b", .num 2)])
        (("a" : String).splitOn ".")).isUndefV = true →
     (reach (.obj [("a", .num 1), ("b", .num 2)])
        (("b" : String).splitOn ".")).isUndefV = true →
     (objBase (xorSchema "a" "b") [] {}
        (.obj [("a", .num 1), ("b", .num 2)])).errors
       = [mkErr "object.missing" [] { peers := ["a", "b"] }]) ∧
    ((reach (.obj [("a", .num 1), ("b", .num 2)])
        (("a" : String).splitOn ".")).isUndefV
        ≠ (reach (.obj [("a", .num 1), ("b", .num 2)])
            (("b" : String).splitOn ".")).isUndefV →
     (objBase (xorSchema "a" "b") [] {}
        (.obj [("a", .num 1), ("b", .num 2)])).errors = []) :=
  claim6_xor "a" "b" [] {} [("a", .num 1), ("b", .num 2)]

theorem objGet_of_not_has (l : JsObj) (k : Key) (h : objHas l k = false) :
    objGet l k = .undefV := by
  induction l with
  | nil => rfl
  | cons kv rest ih =>
    rw [objHas_cons] at h
    rcases Bool.or_eq_false_iff.mp h with ⟨h1, h2⟩
    rw [objGet_cons, if_neg (by simpa using h1)]
    exact ih h2

theorem objHas_of_get_defined (l : JsObj) (k : Key)
    (h : (objGet l k).isUndefV = false) : objHas l k = true := by
  cases hx : objHas l k
  · rw [objGet_of_not_has l k hx] at h
    simp [JsValue.isUndefV] at h
  · rfl

theorem objHas_objSet_of_has (l : JsObj) (k k' : Key) (v : JsValue)
    (h : objHas l k' = true) : objHas (objSet l k v) k' = true := by
  rw [objHas_iff_mem_keys] at h ⊢
  rw [keys_objSet]
  by_cases hh : objHas l k = true
  · rw [if_pos hh]; exact h
  · rw [if_neg hh]; exact List.mem_append_left _ h

/-- C7: under `alias: true, override: true` with a literal source key
holding a defined value and an already-present target key, validation
returns no error, the target key holds the source's value, and the
source key keeps its original value. -/
theorem claim7_rename_alias_override (f t : Key) (fields : JsObj)
    (path : List Key) (o : Options) (hft : f ≠ t)
    (hsrc : (objGet fields f).isUndefV = false)
    (htgt : objHas fields t = true) :
    (objBase (renameAliasSchema f t) path o (.obj fields)).errors = [] ∧
    ∃ out : JsObj,
      (objBase (renameAliasSchema f t) path o (.obj fields)).value = .obj out ∧
      objGet out t = objGet fields f ∧
      objHas out f = true ∧
      objGet out f = objGet fields f := by
  have hres : objBase (renameAliasSchema f t) path o (.obj fields)
      = { value := .obj (objSet fields t (objGet fields f)), errors := [] } := by
    simp [objBase, renameAliasSchema, renameLoop, renameStepLit, hsrc]
  refine ⟨by rw [hres], objSet fields t (objGet fields f), by rw [hres], ?_, ?_, ?_⟩
  · exact objGet_objSet_self fields t (objGet fields f)
  · exact objHas_objSet_of_has fields t f (objGet fields f)
      (objHas_of_get_defined fields f hsrc)
  · exact objGet_objSet_ne fields t f (objGet fields f) hft

theorem claim7_witness :
    (objBase (renameAliasSchema "f" "t") [] {}
        (.obj [("f", .num 5), ("t", .num 9)])).errors = [] ∧
    ∃ out : JsObj,
      (objBase (renameAliasSchema "f" "t") [] {}
          (.obj [("f", .num 5), ("t", .num 9)])).value = .obj out ∧
      objGet out "t" = objGet [("f", .num 5), ("t", .num 9)] "f" ∧
      objHas out "f" = true ∧
      objGet out "f" = objGet [("f", .num 5), ("t", .num 9)] "f" :=
  claim7_rename_alias_override "f" "t" [("f", .num 5), ("t", .num 9)] [] {}
    (by decide) (by simp [objGet, List.find?, JsValue.isUndefV])
    (by simp [objHas])

/-- C4: for an input `{a, c}` whose key `c` matches no declared child
and no pattern: default options give exactly one `object.allowUnknown`
error naming `c` at `path ++ [c]` with `c` retained; `unknown(true)`
retains `c` with no error; `stripUnknown` silently deletes `c` with no
error. -/
theorem claim4_unknown_policy (c : Key) (va vc : JsValue) (path : List Key)
    (hc : c ≠ "a") :
    (objBase (onlyASchema none) path {} (.obj [("a", va), (c, vc)])).errors
      = [mkErr "object.allowUnknown" (path ++ [c]) { child := some c }] ∧
    (objBase (onlyASchema none) path {} (.obj [("a", va), (c, vc)])).value
      = .obj [("a", va), (c, vc)] ∧
    (objBase (onlyASchema (some true)) path {}
        (.obj [("a", va), (c, vc)])).errors = [] ∧
    (objBase (onlyASchema (some true)) path {}
        (.obj [("a", va), (c, vc)])).value = .obj [("a", va), (c, vc)] ∧
    (objBase (onlyASchema none) path { stripUnknown := .allS }
        (.obj [("a", va), (c, vc)])).errors = [] ∧
    (objBase (onlyASchema none) path { stripUnknown := .allS }
        (.obj [("a", va), (c, vc)])).value = .obj [("a", va)] := by
  have hset : objSet [("a", va), (c, vc)] "a" va = [("a", va), (c, vc)] := by
    simp [objSet, objHas, hc]
  have hdel : objDelete [("a", va), (c, vc)] c = [("a", va)] := by
    simp [objDelete, List.filter_cons, Ne.symm hc]
  have hget : objGet [("a", va), (c, vc)] "a" = va := by simp [objGet_cons]
  cases hva : va.isUndefV <;>
    refine ⟨?_, ?_, ?_, ?_, ?_, ?_⟩ <;>
    simp [objBase, onlyASchema, renameLoop, childrenLoop, anyLeaf,
      patternsLoop, unknownPhase, depsLoop, stripOn, stripUnknownEffective,
      hc, hset, hdel, mkErr, hget, hva]

theorem claim4_witness :
    (objBase (onlyASchema none) [] {} (.obj [("a", .num 1), ("c", .num 2)])).errors
      = [mkErr "object.allowUnknown" ([] ++ ["c"]) { child := some "c" }] ∧
    (objBase (onlyASchema none) [] {} (.obj [("a", .num 1), ("c", .num 2)])).value
      = .obj [("a", .num 1), ("c", .num 2)] ∧
    (objBase (onlyASchema (some true)) [] {}
        (.obj [("a", .num 1), ("c", .num 2)])).errors = [] ∧
    (objBase (onlyASchema (some true)) [] {}
        (.obj [("a", .num 1), ("c", .num 2)])).value
      = .obj [("a", .num 1), ("c", .num 2)] ∧
    (objBase (onlyASchema none) [] { stripUnknown := .allS }
        (.obj [("a", .num 1), ("c", .num 2)])).errors = [] ∧
    (objBase (onlyASchema none) [] { stripUnknown := .allS }
        (.obj [("a", .num 1), ("c", .num 2)])).value = .obj [("a", .num 1)] :=
  claim4_unknown_policy "c" (.num 1) (.num 2) [] (by decide)

/-- C3 counterexample: two patterns both match the key `x` of `{x: 0}`;
with `abortEarly: false` BOTH pattern rules run (there is no `break` in
the source loop): both rules' errors are returned and the second rule's
result is the final written-back value — refuting "only the first
matching pattern applies". -/
theorem claim3_counterexample :
    (objBase { patterns := [⟨fun k => k == "x", errValLeaf "p1" (.num 1)⟩,
                            ⟨fun k => k == "x", errValLeaf "p2" (.num 2)⟩] }
        [] { abortEarly := false } (.obj [("x", .num 0)])).errors
      = [mkErr "p1" ["x"] {}, mkErr "p2" ["x"] {}] ∧
    (objBase { patterns := [⟨fun k => k == "x", errValLeaf "p1" (.num 1)⟩,
                            ⟨fun k => k == "x", errValLeaf "p2" (.num 2)⟩] }
        [] { abortEarly := false } (.obj [("x", .num 0)])).value
      = .obj [("x", .num 2)] := by
  constructor <;> rfl

/-- C5 counterexample: with `abortEarly: true` (the default) and two
unknown keys, `_base` returns TWO `object.allowUnknown` errors — the
unknown-key loop has no abortEarly check — refuting "at most one
error". -/
theorem claim5_counterexample :
    (objBase (onlyASchema none) [] {}
        (.obj [("a", .num 1), ("c", .num 2), ("d", .num 3)])).errors
      = [mkErr "object.allowUnknown" ["c"] { child := some "c" },
         mkErr "object.allowUnknown" ["d"] { child := some "d" }] ∧
    ({} : Options).abortEarly = true := by
  constructor <;> rfl

/-- C2 counterexample: children were declared as `{a, b}` (order `a`
before `b`, no references); re-declaring `a` alone moves it AFTER the
untouched key `b` — `keys()` drops the old entry and re-adds the
re-declared key with the new batch, so its topological position is not
preserved. -/
theorem claim2_counterexample :
    keysOp none (some [⟨"a", []⟩, ⟨"b", []⟩])
      = some (some [⟨"a", []⟩, ⟨"b", []⟩]) ∧
    keysOp (some [⟨"a", []⟩, ⟨"b", []⟩]) (some [⟨"a", []⟩])
      = some (some [⟨"b", []⟩, ⟨"a", []⟩]) := by
  constructor <;> rfl

theorem topoGo_trivial (allKeys : List Key) :
    ∀ fuel : Nat, ∀ pending acc : List ChildDecl,
      (∀ c ∈ pending, c.refRoots = []) → pending.length ≤ fuel →
      topoGo allKeys fuel pending acc = some (acc.reverse ++ pending) := by
  intro fuel
  induction fuel with
  | zero =>
    intro pending acc _ hlen
    have : pending = [] := List.eq_nil_of_length_eq_zero (Nat.le_zero.mp hlen)
    subst this
    simp [topoGo]
  | succ n ih =>
    intro pending acc hroots hlen
    cases pending with
    | nil => simp [topoGo]
    | cons c rest =>
      have hready : itemReady allKeys (acc.map (fun c => c.key)) c = true := by
        simp [itemReady, hroots c (List.mem_cons_self c rest)]
      have hpick : pickReady allKeys (acc.map (fun c => c.key)) (c :: rest)
          = some (c, rest) := by
        simp [pickReady, hready]
      have hrec := ih rest (c :: acc)
        (fun x hx => hroots x (List.mem_cons_of_mem c hx))
        (Nat.le_of_succ_le_succ hlen)
      simp [topoGo, hpick, hrec, List.reverse_cons, List.append_assoc]

/-- C2 amended: re-declaring an existing key does NOT keep it in place —
`keys()` keeps only the untouched existing children (in their previous
relative order) and re-inserts the re-declared key together with the
brand-new keys in field-map order (each placed after its reference
roots; here stated for declarations carrying no reference roots, where
the order is exactly untouched-then-field-map). -/
theorem claim2_amended (old m : List ChildDecl)
    (hold : ∀ c ∈ old, c.refRoots = []) (hm : ∀ c ∈ m, c.refRoots = [])
    (hne : m ≠ []) :
    keysOp (some old) (some m)
      = some (some (old.filter
          (fun c => !((m.map (fun d => d.key)).contains c.key)) ++ m)) := by
  have hitems : ∀ c ∈ keysItems (some old) m, c.refRoots = [] := by
    intro c hc
    rcases List.mem_append.mp hc with hcf | hcm
    · exact hold c (List.mem_of_mem_filter hcf)
    · exact hm c hcm
  have hempty : m.isEmpty = false := by
    cases m with
    | nil => exact absurd rfl hne
    | cons x xs => rfl
  have := topoGo_trivial ((keysItems (some old) m).map (fun c => c.key))
    (keysItems (some old) m).length (keysItems (some old) m) [] hitems
    (Nat.le_refl _)
  simp only [keysOp, hempty, Bool.false_eq_true, if_false, topoSort, this,
    List.reverse_nil, List.nil_append, Option.map_some]
  rfl

theorem claim2_witness :
    keysOp (some [⟨"a", []⟩, ⟨"b", []⟩]) (some [⟨"a", []⟩, ⟨"c", []⟩])
      = some (some ([⟨"a", []⟩, ⟨"b", []⟩].filter
          (fun c => !(([⟨"a", []⟩, ⟨"c", []⟩].map
              (fun d : ChildDecl => d.key)).contains c.key))
          ++ [⟨"a", []⟩, ⟨"c", []⟩])) :=
  claim2_amended [⟨"a", []⟩, ⟨"b", []⟩] [⟨"a", []⟩, ⟨"c", []⟩]
    (by decide) (by decide) (by decide)

theorem pickReady_perm (allKeys done : List Key) :
    ∀ l c rest, pickReady allKeys done l = some (c, rest) →
      l.Perm (c :: rest) := by
  intro l
  induction l with
  | nil => intro c rest h; simp [pickReady] at h
  | cons x l' ih =>
    intro c rest h
    by_cases hr : itemReady allKeys done x = true
    · rw [pickReady, if_pos hr] at h
      injection h with h
      injection h with h1 h2
      subst h1; subst h2
      exact List.Perm.refl _
    · rw [pickReady, if_neg hr] at h
      cases hp : pickReady allKeys done l' with
      | none => rw [hp] at h; exact absurd h (by simp)
      | some p =>
        rw [hp] at h
        injection h with h
        injection h with h1 h2
        subst h1
        have hperm := ih p.1 p.2 (by rw [hp])
        rw [← h2]
        exact (List.Perm.cons x hperm).trans (List.Perm.swap p.1 x p.2)

theorem pickReady_ready (allKeys done : List Key) :
    ∀ l c rest, pickReady allKeys done l = some (c, rest) →
      itemReady allKeys done c = true := by
  intro l
  induction l with
  | nil => intro c rest h; simp [pickReady] at h
  | cons x l' ih =>
    intro c rest h
    by_cases hr : itemReady allKeys done x = true
    · rw [pickReady, if_pos hr] at h
      injection h with h
      injection h with h1 _
      subst h1; exact hr
    · rw [pickReady, if_neg hr] at h
      cases hp : pickReady allKeys done l' with
      | none => rw [hp] at h; exact absurd h (by simp)
      | some p =>
        rw [hp] at h
        injection h with h
        injection h with h1 _
        subst h1
        exact ih p.1 p.2 (by rw [hp])

theorem topoGo_perm (allKeys : List Key) :
    ∀ fuel pending acc out,
      topoGo allKeys fuel pending acc = some out →
      out.Perm (acc.reverse ++ pending) := by
  intro fuel
  induction fuel with
  | zero =>
    intro pending acc out h
    simp [topoGo] at h
    rcases h with ⟨hp, hout⟩
    subst hout; subst hp
    simp
  | succ n ih =>
    intro pending acc out h
    by_cases hp : pending.isEmpty = true
    · rw [topoGo, if_pos hp] at h
      injection h with h
      subst h
      simp [List.isEmpty_iff.mp hp]
    · rw [topoGo, if_neg hp] at h
      cases hpick : pickReady allKeys (acc.map (fun c => c.key)) pending with
      | none => rw [hpick] at h; exact absurd h (by simp)
      | some p =>
        rw [hpick] at h
        have hperm := ih p.2 (p.1 :: acc) out h
        have hpend := pickReady_perm allKeys (acc.map (fun c => c.key))
          pending p.1 p.2 hpick
        have heq : ((p.1 :: acc).reverse ++ p.2) = acc.reverse ++ ([p.1] ++ p.2) := by
          simp
        rw [heq] at hperm
        exact hperm.trans (List.Perm.append_left _ (by simpa using hpend.symm))

theorem topoGo_respects (allKeys : List Key) :
    ∀ fuel pending acc out,
      topoGo allKeys fuel pending acc = some out →
      ∃ rest, out = acc.reverse ++ rest ∧
        topoRespectsAux allKeys (acc.map (fun c => c.key)) rest := by
  intro fuel
  induction fuel with
  | zero =>
    intro pending acc out h
    simp [topoGo] at h
    rcases h with ⟨_, hout⟩
    exact ⟨[], by simp [hout.symm], trivial⟩
  | succ n ih =>
    intro pending acc out h
    by_cases hp : pending.isEmpty = true
    · rw [topoGo, if_pos hp] at h
      injection h with h
      exact ⟨[], by simp [h.symm], trivial⟩
    · rw [topoGo, if_neg hp] at h
      cases hpick : pickReady allKeys (acc.map (fun c => c.key)) pending with
      | none => rw [hpick] at h; exact absurd h (by simp)
      | some p =>
        rw [hpick] at h
        rcases ih p.2 (p.1 :: acc) out h with ⟨rest, hout, hresp⟩
        refine ⟨p.1 :: rest, ?_, ?_, ?_⟩
        · rw [hout]; simp
        · intro r hr hall
          have hready := pickReady_ready allKeys (acc.map (fun c => c.key))
            pending p.1 p.2 hpick
          rw [itemReady, List.all_eq_true] at hready
          have := hready r hr
          rcases Bool.or_eq_true_iff.mp this with h0 | h0
          · rw [Bool.not_eq_true'] at h0
            exact absurd hall (by simpa using h0)
          · exact of_decide_eq_true h0
        · simpa using hresp

theorem respects_prefix (allKeys : List Key) :
    ∀ u done c v, topoRespectsAux allKeys done (u ++ c :: v) →
      ∀ r ∈ c.refRoots, r ∈ allKeys →
        r ∈ done ∨ r ∈ u.map (fun d => d.key) := by
  intro u
  induction u with
  | nil =>
    intro done c v h r hr hall
    exact Or.inl (h.1 r hr hall)
  | cons x u' ih =>
    intro done c v h r hr hall
    rcases ih (x.key :: done) c v h.2 r hr hall with hd | hu
    · rcases List.mem_cons.mp hd with h0 | h0
      · exact Or.inr (by simp [h0])
      · exact Or.inl h0
    · exact Or.inr (by simp [hu])

theorem keyIdx_cons (x : ChildDecl) (rest : List ChildDecl) (k : Key) :
    keyIdx (x :: rest) k = if x.key = k then 0 else keyIdx rest k + 1 := rfl

theorem keyIdx_append_left (k : Key) :
    ∀ u w : List ChildDecl, k ∈ u.map (fun d => d.key) →
      keyIdx (u ++ w) k < u.length := by
  intro u
  induction u with
  | nil => intro w h; simp at h
  | cons x u' ih =>
    intro w h
    rw [List.cons_append, keyIdx_cons]
    by_cases hx : x.key = k
    · simp [hx]
    · rw [if_neg hx, List.length_cons]
      have h0 : k ∈ u'.map (fun d => d.key) := by
        rcases List.mem_map.mp h with ⟨d, hd, hdk⟩
        rcases List.mem_cons.mp hd with h1 | h1
        · exact absurd (h1 ▸ hdk) hx
        · exact List.mem_map.mpr ⟨d, h1, hdk⟩
      have := ih w h0
      omega

theorem keyIdx_append_at (k : Key) :
    ∀ u w : List ChildDecl, ¬ k ∈ u.map (fun d => d.key) →
      keyIdx (u ++ w) k = u.length + keyIdx w k := by
  intro u
  induction u with
  | nil => intro w _; simp
  | cons x u' ih =>
    intro w h
    have hx : ¬ x.key = k := fun he => h (by simp [he])
    have h' : ¬ k ∈ u'.map (fun d => d.key) := fun hm => h (by simp; right; simpa using hm)
    rw [List.cons_append, keyIdx_cons, if_neg hx, List.length_cons, ih w h']
    omega

/-- C1: in any `keys()` call whose field map declares a field `b`
holding a reference rooted at sibling key `a` together with a plain
field `a` (no sibling references), the resulting children sequence
places `a` before `b`, whatever the field-map order and whatever
children already existed. -/
theorem claim1_topo_order (old : Option (List ChildDecl)) (m : List ChildDecl)
    (a b : ChildDecl) (out : List ChildDecl)
    (ham : a ∈ m) (hbm : b ∈ m) (hab : a.key ≠ b.key)
    (haroots : a.refRoots = []) (hbref : a.key ∈ b.refRoots)
    (hnodup : ((keysItems old m).map (fun c => c.key)).Nodup)
    (hout : keysOp old (some m) = some (some out)) :
    keyIdx out a.key < keyIdx out b.key := by
  have hme : m.isEmpty = false := by
    cases m with
    | nil => cases ham
    | cons _ _ => rfl
  rw [keysOp] at hout
  simp only [hme, Bool.false_eq_true, if_false] at hout
  have hts : topoSort (keysItems old m) = some out := by
    cases hx : topoSort (keysItems old m) with
    | none => rw [hx] at hout; exact absurd hout (by simp)
    | some o =>
      rw [hx] at hout
      simpa using hout
  rw [topoSort] at hts
  have hperm := topoGo_perm _ _ _ _ _ hts
  simp only [List.reverse_nil, List.nil_append] at hperm
  rcases topoGo_respects _ _ _ _ _ hts with ⟨rest, hrest, hresp⟩
  simp only [List.reverse_nil, List.nil_append] at hrest
  subst hrest
  have hbitems : b ∈ keysItems old m := List.mem_append_right _ hbm
  have haitems : a ∈ keysItems old m := List.mem_append_right _ ham
  have hbout : b ∈ out := (hperm.mem_iff).mpr hbitems
  rcases List.append_of_mem hbout with ⟨u, v, huv⟩
  have hakeys : a.key ∈ (keysItems old m).map (fun c => c.key) :=
    List.mem_map.mpr ⟨a, haitems, rfl⟩
  have hau : a.key ∈ u.map (fun d => d.key) := by
    rw [huv] at hresp
    rcases respects_prefix _ u [] b v hresp a.key hbref hakeys with h0 | h0
    · cases h0
    · exact h0
  have hnodupOut : (out.map (fun c => c.key)).Nodup :=
    ((hperm.map (fun c => c.key)).nodup_iff).mpr hnodup
  have hbu : ¬ b.key ∈ u.map (fun d => d.key) := by
    intro hmem
    rw [huv] at hnodupOut
    simp only [List.map_append, List.map_cons] at hnodupOut
    have hdisj := List.disjoint_of_nodup_append hnodupOut
    exact hdisj hmem (List.mem_cons_self _ _)
  have hidxa : keyIdx out a.key < u.length := by
    rw [huv]
    exact keyIdx_append_left a.key u (b :: v) hau
  have hidxb : keyIdx out b.key = u.length := by
    rw [huv, keyIdx_append_at b.key u (b :: v) hbu, keyIdx_cons, if_pos rfl]
    omega
  omega

theorem claim1_witness :
    keyIdx [⟨"a", []⟩, ⟨"b", ["a"]⟩] "a"
      < keyIdx [⟨"a", []⟩, ⟨"b", ["a"]⟩] "b" :=
  claim1_topo_order none [⟨"b", ["a"]⟩, ⟨"a", []⟩] ⟨"a", []⟩ ⟨"b", ["a"]⟩
    [⟨"a", []⟩, ⟨"b", ["a"]⟩] (by decide) (by decide) (by decide) rfl
    (by decide) (by decide) (by decide)

theorem patternInner_noabort (o : Options) (path : List Key) (k : Key)
    (item : JsValue) (hab : o.abortEarly = false) :
    ∀ (ps : List Pattern) (t : JsObj) (es : List JoiError) (m : Bool),
      patternInner o path k item ps t es m =
        (true,
         (ps.filter (fun p => p.matcher k)).foldl
           (fun tt p => objSet tt k (p.rule.validate item (path ++ [k]) o).value) t,
         es ++ (ps.filter (fun p => p.matcher k)).flatMap
           (fun p => (p.rule.validate item (path ++ [k]) o).errors),
         m || ps.any (fun p => p.matcher k)) := by
  intro ps
  induction ps with
  | nil => intro t es m; simp [patternInner]
  | cons p rest ih =>
    intro t es m
    by_cases hm : p.matcher k = true
    · simp [patternInner, hm, hab, ih, List.filter_cons, List.append_assoc]
    · simp [patternInner, hm, ih, List.filter_cons]

theorem foldl_objSet_single {α : Type} (k : Key) (f : α → JsValue) :
    ∀ (l : List α) (v : JsValue),
      l.foldl (fun tt p => objSet tt k (f p)) [(k, v)]
        = [(k, l.foldl (fun _ p => f p) v)] := by
  intro l
  induction l with
  | nil => intro v; rfl
  | cons p rest ih =>
    intro v
    have hstep : objSet [(k, v)] k (f p) = [(k, f p)] := by
      simp [objSet, objHas]
    simp only [List.foldl_cons, hstep, ih]

/-- C3 amended: for an unprocessed key, EVERY matching pattern's rule
runs (in declaration order) against the key's original value — the
source loop removes the key from the unprocessed set at the first match
but has no `break` — so each match writes its result back (the last
match determines the final value) and the errors of all matching rules
accumulate (under `abortEarly` the walk stops at the first erroring
match, before that match's write). -/
theorem claim3_amended (ps : List Pattern) (k : Key) (item : JsValue)
    (o : Options) (path : List Key) (hab : o.abortEarly = false)
    (hmatch : ps.any (fun p => p.matcher k) = true) :
    (objBase { patterns := ps } path o (.obj [(k, item)])).errors
      = (ps.filter (fun p => p.matcher k)).flatMap
          (fun p => (p.rule.validate item (path ++ [k]) o).errors) ∧
    (objBase { patterns := ps } path o (.obj [(k, item)])).value
      = .obj [(k, (ps.filter (fun p => p.matcher k)).foldl
          (fun v p => (p.rule.validate item (path ++ [k]) o).value) item)] := by
  have hne : ps.isEmpty = false := by
    cases ps with
    | nil => simp at hmatch
    | cons _ _ => rfl
  have hget : objGet [(k, item)] k = item := by simp [objGet_cons]
  constructor <;>
    simp [objBase, hne, renameLoop, childrenLoop, patternsLoop,
      patternInner_noabort o path k item hab, hget, hmatch, unknownPhase,
      depsLoop, foldl_objSet_single k
        (fun p : Pattern => (p.rule.validate item (path ++ [k]) o).value)]

theorem claim3_witness :
    (objBase { patterns := [⟨fun k => k == "y", errValLeaf "q1" (.num 7)⟩,
                            ⟨fun k => k == "y", errValLeaf "q2" (.num 8)⟩] }
        [] { abortEarly := false } (.obj [("y", .num 0)])).errors
      = ([⟨fun k => k == "y", errValLeaf "q1" (.num 7)⟩,
          ⟨fun k => k == "y", errValLeaf "q2" (.num 8)⟩].filter
            (fun p : Pattern => p.matcher "y")).flatMap
          (fun p => (p.rule.validate (.num 0) ([] ++ ["y"])
            { abortEarly := false }).errors) ∧
    (objBase { patterns := [⟨fun k => k == "y", errValLeaf "q1" (.num 7)⟩,
                            ⟨fun k => k == "y", errValLeaf "q2" (.num 8)⟩] }
        [] { abortEarly := false } (.obj [("y", .num 0)])).value
      = .obj [("y", ([⟨fun k => k == "y", errValLeaf "q1" (.num 7)⟩,
          ⟨fun k => k == "y", errValLeaf "q2" (.num 8)⟩].filter
            (fun p : Pattern => p.matcher "y")).foldl
          (fun v p => (p.rule.validate (.num 0) ([] ++ ["y"])
            { abortEarly := false }).value) (.num 0))] :=
  claim3_amended [⟨fun k => k == "y", errValLeaf "q1" (.num 7)⟩,
    ⟨fun k => k == "y", errValLeaf "q2" (.num 8)⟩] "y" (.num 0)
    { abortEarly := false } [] rfl rfl

theorem renameStepLit_noabort (o : Options) (path : List Key) (ro : RenameOpts)
    (fromK toK : Key) (renamed : List Key) (t : JsObj) (es : List JoiError)
    (hab : o.abortEarly = false) :
    (renameStepLit o path ro fromK toK renamed t es).1 = true := by
  simp only [renameStepLit, hab, Bool.and_false, Bool.false_eq_true, if_false]
  split <;> rfl

theorem renameStepPat_noabort (o : Options) (path : List Key) (ro : RenameOpts)
    (test : Key → Bool) (toK : Key) (renamed : List Key) (t : JsObj)
    (es : List JoiError) (hab : o.abortEarly = false) :
    (renameStepPat o path ro test toK renamed t es).1 = true := by
  simp only [renameStepPat, hab, Bool.and_false, Bool.false_eq_true, if_false]
  split <;> rfl

theorem renameLoop_noabort (o : Options) (path : List Key)
    (hab : o.abortEarly = false) :
    ∀ (rs : List Rename) (renamed : List Key) (t : JsObj) (es : List JoiError),
      (renameLoop o path rs renamed t es).1 = true := by
  intro rs
  induction rs with
  | nil => intro renamed t es; rfl
  | cons r rest ih =>
    intro renamed t es
    rw [renameLoop]
    cases hf : r.rfrom with
    | lit fromK =>
      rcases hstep : renameStepLit o path r.ropts fromK r.rto renamed t es
        with ⟨ok, ren1, t1, es1⟩
      have := renameStepLit_noabort o path r.ropts fromK r.rto renamed t es hab
      rw [hstep] at this
      subst this
      simp only [hstep]
      exact ih ren1 t1 es1
    | pat test =>
      rcases hstep : renameStepPat o path r.ropts test r.rto renamed t es
        with ⟨ok, ren1, t1, es1⟩
      have := renameStepPat_noabort o path r.ropts test r.rto renamed t es hab
      rw [hstep] at this
      subst this
      simp only [hstep]
      exact ih ren1 t1 es1

theorem childrenLoop_noabort (o : Options) (path : List Key)
    (hab : o.abortEarly = false) :
    ∀ (cs : List ChildSpec) (st : ChState),
      (childrenLoop o path cs st).1 = true := by
  intro cs
  induction cs with
  | nil => intro st; rfl
  | cons c rest ih =>
    intro st
    rw [childrenLoop]
    by_cases he : (c.schema.validate (objGet st.target c.key)
        (path ++ [c.key]) o).errors.isEmpty = true
    · simp only [he, if_true]
      exact ih _
    · simp only [he, Bool.false_eq_true, if_false, hab]
      exact ih _

theorem patternsLoop_noabort (o : Options) (path : List Key)
    (ps : List Pattern) (hab : o.abortEarly = false) :
    ∀ (ks : List Key) (t : JsObj) (unp : List Key) (es : List JoiError),
      (patternsLoop o path ps ks t unp es).1 = true := by
  intro ks
  induction ks with
  | nil => intro t unp es; rfl
  | cons k krest ih =>
    intro t unp es
    rw [patternsLoop]
    rw [patternInner_noabort o path k (objGet t k) hab ps t es false]
    exact ih _ _ _

theorem children_match_eq (o : Options) (path : List Key)
    (ch : Option (List ChildSpec)) (st : ChState) :
    (match ch with
     | none => (true, st)
     | some cs => childrenLoop o path cs st)
      = childrenLoop o path (ch.getD []) st := by
  cases ch <;> rfl

/-- Under `abortEarly: false` no phase aborts, and a `_base` run is
exactly the composition of its phase runs followed by the dependency
loop. -/
theorem objBase_pipeline (s : ObjectSchema) (path : List Key) (o : Options)
    (fields : JsObj) (hab : o.abortEarly = false) :
    objBase s path o (.obj fields)
      = ⟨.obj (unknownRun s path o fields).1,
         (depsLoop o path (unknownRun s path o fields).1 s.dependencies
           (unknownRun s path o fields).2.2).2⟩ := by
  by_cases h1 : (s.renames.isEmpty && s.dependencies.isEmpty
      && s.children.isNone && s.patterns.isEmpty) = true
  · have hrn : s.renames = [] := by
      rcases Bool.and_eq_true_iff.mp h1 with ⟨h, _⟩
      rcases Bool.and_eq_true_iff.mp h with ⟨h, _⟩
      rcases Bool.and_eq_true_iff.mp h with ⟨h, _⟩
      exact List.isEmpty_iff.mp h
    have hdp : s.dependencies = [] := by
      rcases Bool.and_eq_true_iff.mp h1 with ⟨h, _⟩
      rcases Bool.and_eq_true_iff.mp h with ⟨h, _⟩
      rcases Bool.and_eq_true_iff.mp h with ⟨_, h⟩
      exact List.isEmpty_iff.mp h
    have hcn : s.children = none := by
      rcases Bool.and_eq_true_iff.mp h1 with ⟨h, _⟩
      rcases Bool.and_eq_true_iff.mp h with ⟨_, h⟩
      exact Option.isNone_iff_eq_none.mp h
    have hpt : s.patterns = [] := by
      rcases Bool.and_eq_true_iff.mp h1 with ⟨_, h⟩
      exact List.isEmpty_iff.mp h
    simp [objBase, unknownRun, patternsRun, strippedRun, childrenRun,
      childrenOf, renameRun, hrn, hdp, hcn, hpt, renameLoop, childrenLoop,
      depsLoop]
  · rcases hr : renameLoop o path s.renames [] fields [] with ⟨ok, t1, es1⟩
    have hok := renameLoop_noabort o path hab s.renames [] fields []
    rw [hr] at hok
    subst hok
    have hrr : renameRun s path o fields = (true, t1, es1) := hr
    by_cases h2 : (s.children.isNone && s.patterns.isEmpty
        && s.dependencies.isEmpty) = true
    · have hcn : s.children = none := by
        rcases Bool.and_eq_true_iff.mp h2 with ⟨h, _⟩
        rcases Bool.and_eq_true_iff.mp h with ⟨h, _⟩
        exact Option.isNone_iff_eq_none.mp h
      have hpt : s.patterns = [] := by
        rcases Bool.and_eq_true_iff.mp h2 with ⟨h, _⟩
        rcases Bool.and_eq_true_iff.mp h with ⟨_, h⟩
        exact List.isEmpty_iff.mp h
      have hdp : s.dependencies = [] := by
        rcases Bool.and_eq_true_iff.mp h2 with ⟨_, h⟩
        exact List.isEmpty_iff.mp h
      have hrne : s.renames.isEmpty = false := by
        cases hx : s.renames.isEmpty
        · rfl
        · exact absurd (by simp [hx, hcn, hpt, hdp]) h1
      simp [objBase, h1, hrne, unknownRun, patternsRun, strippedRun,
        childrenRun, childrenOf, hrr, hr, hcn, hpt, hdp, childrenLoop,
        depsLoop]
    · rcases hch : childrenRun s path o fields with ⟨ok2, st⟩
      have hok2 := childrenLoop_noabort o path hab (childrenOf s)
        ⟨t1, t1.map Prod.fst, es1, []⟩
      have hch' : childrenLoop o path (childrenOf s)
          ⟨t1, t1.map Prod.fst, es1, []⟩ = (ok2, st) := by
        rw [← hch]
        simp [childrenRun, hrr]
      rw [hch'] at hok2
      subst hok2
      rcases hpl : patternsRun s path o fields with ⟨ok3, t3, unp3, es3⟩
      have hok3 : ok3 = true := by
        have : (patternsRun s path o fields).1 = true := by
          rw [patternsRun]
          split
          · exact patternsLoop_noabort o path s.patterns hab _ _ _ _
          · rfl
        rw [hpl] at this
        exact this
      subst hok3
      rw [objBase]
      simp only [h1, Bool.false_eq_true, if_false, hr, h2]
      rw [children_match_eq o path s.children]
      have hst0 : childrenLoop o path (s.children.getD [])
          ⟨t1, t1.map Prod.fst, es1, []⟩ = (true, st) := hch'
      rw [hst0]
      simp only [Bool.not_true, Bool.false_eq_true, if_false]
      have hplx : (if !st.unprocessed.isEmpty && !s.patterns.isEmpty then
          patternsLoop o path s.patterns st.unprocessed
            (st.strips.foldl objDelete st.target) st.unprocessed st.errors
        else (true, st.strips.foldl objDelete st.target, st.unprocessed,
          st.errors)) = (true, t3, unp3, es3) := by
        rw [← hpl, patternsRun]
        have hstr : strippedRun s path o fields
            = st.strips.foldl objDelete st.target := by
          rw [strippedRun, hch]
        rw [hch, hstr]
      rw [hplx]
      dsimp only
      have hukx : (if !unp3.isEmpty && (s.children.isSome || !s.patterns.isEmpty)
          then unknownPhase s o path t3 unp3 es3
          else (t3, unp3, es3)) = unknownRun s path o fields := by
        rw [unknownRun, hpl]
      rw [hukx]

theorem childrenLoop_strips_mono (o : Options) (path : List Key) :
    ∀ (cs : List ChildSpec) (st : ChState) (k : Key),
      k ∈ st.strips → k ∈ (childrenLoop o path cs st).2.strips := by
  intro cs
  induction cs with
  | nil => intro st k hk; exact hk
  | cons c rest ih =>
    intro st k hk
    rw [childrenLoop]
    split_ifs <;>
      first
      | exact hk
      | (apply ih; simp [hk])
      | simp [hk]

theorem childrenLoop_strip_key_mem (o : Options) (path : List Key)
    (hab : o.abortEarly = false) :
    ∀ (cs : List ChildSpec) (st : ChState) (c : ChildSpec),
      c ∈ cs → c.schema.strip = true →
      c.key ∈ (childrenLoop o path cs st).2.strips := by
  intro cs
  induction cs with
  | nil => intro st c hc; cases hc
  | cons c0 rest ih =>
    intro st c hc hstrip
    rcases List.mem_cons.mp hc with hc0 | hcr
    · subst hc0
      rw [childrenLoop]
      split_ifs <;>
        first
        | (apply childrenLoop_strips_mono; simp)
        | simp_all
    · rw [childrenLoop]
      split_ifs <;>
        first
        | (exact ih _ c hcr hstrip)
        | simp_all

theorem childrenLoop_unp_sub (o : Options) (path : List Key) :
    ∀ (cs : List ChildSpec) (st : ChState) (k : Key),
      k ∈ (childrenLoop o path cs st).2.unprocessed → k ∈ st.unprocessed := by
  intro cs
  induction cs with
  | nil => intro st k hk; exact hk
  | cons c rest ih =>
    intro st k hk
    rw [childrenLoop] at hk
    have hfil : ∀ x : Key, x ∈ st.unprocessed.filter (fun u => u ≠ c.key) →
        x ∈ st.unprocessed := fun x hx => List.mem_of_mem_filter hx
    revert hk
    split_ifs <;>
      first
      | (intro hk; exact hfil k (ih _ k hk))
      | (intro hk; exact hfil k hk)

theorem childrenLoop_key_not_unp (o : Options) (path : List Key)
    (hab : o.abortEarly = false) :
    ∀ (cs : List ChildSpec) (st : ChState) (c : ChildSpec), c ∈ cs →
      ¬ c.key ∈ (childrenLoop o path cs st).2.unprocessed := by
  intro cs
  induction cs with
  | nil => intro st c hc; cases hc
  | cons c0 rest ih =>
    intro st c hc hk
    rcases List.mem_cons.mp hc with hc0 | hcr
    · subst hc0
      have hnot : ¬ c.key ∈ st.unprocessed.filter (fun u => u ≠ c.key) := by
        intro hm
        have := List.of_mem_filter hm
        simp at this
      rw [childrenLoop] at hk
      revert hk
      split_ifs <;>
        first
        | (intro hk; exact hnot (childrenLoop_unp_sub o path rest _ _ hk))
        | (intro hk; exact hnot hk)
        | simp_all
    · rw [childrenLoop] at hk
      revert hk
      split_ifs <;>
        first
        | (intro hk; exact ih _ c hcr hk)
        | simp_all

theorem foldl_objDelete_mono :
    ∀ (ks : List Key) (t : JsObj) (k : Key), objHas t k = false →
      objHas (ks.foldl objDelete t) k = false := by
  intro ks
  induction ks with
  | nil => intro t k h; exact h
  | cons k0 krest ih =>
    intro t k h
    exact ih _ k (objHas_objDelete_mono t k0 k h)

theorem foldl_objDelete_mem :
    ∀ (ks : List Key) (t : JsObj) (k : Key), k ∈ ks →
      objHas (ks.foldl objDelete t) k = false := by
  intro ks
  induction ks with
  | nil => intro t k h; cases h
  | cons k0 krest ih =>
    intro t k h
    rcases List.mem_cons.mp h with h0 | h0
    · subst h0
      exact foldl_objDelete_mono krest _ k (objHas_objDelete_self t k)
    · exact ih _ k h0

theorem patternInner_not_has (o : Options) (path : List Key) (key : Key)
    (item : JsValue) (k : Key) (hne : k ≠ key) :
    ∀ (ps : List Pattern) (t : JsObj) (es : List JoiError) (m : Bool),
      objHas t k = false →
      objHas (patternInner o path key item ps t es m).2.1 k = false := by
  intro ps
  induction ps with
  | nil => intro t es m h; exact h
  | cons p rest ih =>
    intro t es m h
    rw [patternInner]
    by_cases hm : p.matcher key = true
    · simp only [hm, if_true]
      split_ifs
      · exact h
      · exact ih _ _ _ (objHas_objSet_mono t key k _ h hne)
    · simp only [hm, Bool.false_eq_true, if_false]
      exact ih _ _ _ h

theorem patternsLoop_not_has (o : Options) (path : List Key)
    (ps : List Pattern) (k : Key) :
    ∀ (ks : List Key) (t : JsObj) (unp : List Key) (es : List JoiError),
      ¬ k ∈ ks → objHas t k = false →
      objHas (patternsLoop o path ps ks t unp es).2.1 k = false := by
  intro ks
  induction ks with
  | nil => intro t unp es _ h; exact h
  | cons k0 krest ih =>
    intro t unp es hks h
    have hne : k ≠ k0 := fun he => hks (by simp [he])
    have hkr : ¬ k ∈ krest := fun hm => hks (by simp [hm])
    rw [patternsLoop]
    rcases hin : patternInner o path k0 (objGet t k0) ps t es false
      with ⟨ok, t1, es1, m1⟩
    have hpres := patternInner_not_has o path k0 (objGet t k0) k hne ps t es
      false h
    rw [hin] at hpres
    cases ok
    · exact hpres
    · exact ih t1 _ es1 hkr hpres

theorem unknownPhase_not_has (s : ObjectSchema) (o : Options) (path : List Key)
    (t : JsObj) (unp : List Key) (es : List JoiError) (k : Key)
    (h : objHas t k = false) :
    objHas (unknownPhase s o path t unp es).1 k = false := by
  rw [unknownPhase]
  split_ifs <;> first | exact h | exact foldl_objDelete_mono unp t k h

/-- C9: with `abortEarly: false`, a declared child flagged `strip` is
deleted from the returned working copy even when its validation fails
(the strip list is fed on the error path too, before the deletion
sweep), so the field never appears in the returned value. -/
theorem claim9_strip_on_error (s : ObjectSchema) (cs : List ChildSpec)
    (c : ChildSpec) (o : Options) (path : List Key) (fields : JsObj)
    (hcs : s.children = some cs) (hc : c ∈ cs)
    (hstrip : c.schema.strip = true) (hab : o.abortEarly = false)
    (hfail : ∀ v p, (c.schema.validate v p o).errors ≠ []) :
    ∃ out : JsObj, (objBase s path o (.obj fields)).value = .obj out ∧
      objHas out c.key = false := by
  rw [objBase_pipeline s path o fields hab]
  refine ⟨(unknownRun s path o fields).1, rfl, ?_⟩
  have hco : childrenOf s = cs := by rw [childrenOf, hcs]; rfl
  rcases hch : childrenRun s path o fields with ⟨ok2, st⟩
  have hchl : childrenLoop o path (childrenOf s)
      ⟨(renameRun s path o fields).2.1,
       (renameRun s path o fields).2.1.map Prod.fst,
       (renameRun s path o fields).2.2, []⟩ = (ok2, st) := by
    rw [← hch, childrenRun]
  have hmem : c.key ∈ st.strips := by
    have := childrenLoop_strip_key_mem o path hab (childrenOf s)
      ⟨(renameRun s path o fields).2.1,
       (renameRun s path o fields).2.1.map Prod.fst,
       (renameRun s path o fields).2.2, []⟩ c (hco ▸ hc) hstrip
    rw [hchl] at this
    exact this
  have hunp : ¬ c.key ∈ st.unprocessed := by
    have := childrenLoop_key_not_unp o path hab (childrenOf s)
      ⟨(renameRun s path o fields).2.1,
       (renameRun s path o fields).2.1.map Prod.fst,
       (renameRun s path o fields).2.2, []⟩ c (hco ▸ hc)
    rw [hchl] at this
    exact this
  have hstripped : objHas (strippedRun s path o fields) c.key = false := by
    rw [strippedRun, hch]
    exact foldl_objDelete_mem st.strips st.target c.key hmem
  have hpat : objHas (patternsRun s path o fields).2.1 c.key = false := by
    rw [patternsRun, hch]
    split_ifs
    · exact patternsLoop_not_has o path s.patterns c.key st.unprocessed
        (strippedRun s path o fields) st.unprocessed st.errors hunp hstripped
    · exact hstripped
  rw [unknownRun]
  split_ifs
  · exact unknownPhase_not_has s o path _ _ _ c.key hpat
  · exact hpat

theorem claim9_witness :
    ∃ out : JsObj,
      (objBase { children := some [⟨"s", stripErrLeaf "bad"⟩] } []
          { abortEarly := false } (.obj [("s", .num 1)])).value = .obj out ∧
      objHas out "s" = false :=
  claim9_strip_on_error { children := some [⟨"s", stripErrLeaf "bad"⟩] }
    [⟨"s", stripErrLeaf "bad"⟩] ⟨"s", stripErrLeaf "bad"⟩ { abortEarly := false }
    [] [("s", .num 1)] rfl (List.mem_singleton.mpr rfl) rfl rfl
    (fun v p => by simp [stripErrLeaf])

theorem foldl_objSet_get_ne {α : Type} (k0 : Key) (f : α → JsValue)
    (k : Key) (hne : k ≠ k0) :
    ∀ (l : List α) (t : JsObj),
      objGet (l.foldl (fun tt p => objSet tt k0 (f p)) t) k = objGet t k := by
  intro l
  induction l with
  | nil => intro t; rfl
  | cons p rest ih =>
    intro t
    simp only [List.foldl_cons]
    rw [ih, objGet_objSet_ne t k0 k (f p) hne]

theorem foldl_objSet_get_self {α : Type} (k0 : Key) (f : α → JsValue) :
    ∀ (l : List α) (t : JsObj),
      objGet (l.foldl (fun tt p => objSet tt k0 (f p)) t) k0
        = l.foldl (fun _ p => f p) (objGet t k0) := by
  intro l
  induction l with
  | nil => intro t; rfl
  | cons p rest ih =>
    intro t
    simp only [List.foldl_cons]
    rw [ih, objGet_objSet_self]

theorem foldl_objDelete_get_not_mem :
    ∀ (ks : List Key) (t : JsObj) (k : Key), ¬ k ∈ ks →
      objGet (ks.foldl objDelete t) k = objGet t k := by
  intro ks
  induction ks with
  | nil => intro t k _; rfl
  | cons k0 krest ih =>
    intro t k h
    have hne : k ≠ k0 := fun he => h (by simp [he])
    have hkr : ¬ k ∈ krest := fun hm => h (by simp [hm])
    simp only [List.foldl_cons]
    rw [ih _ k hkr, objGet_objDelete_ne t k0 k hne]

theorem patternInner_get_ne (o : Options) (path : List Key) (key : Key)
    (item : JsValue) (k : Key) (hne : k ≠ key) (hab : o.abortEarly = false)
    (ps : List Pattern) (t : JsObj) (es : List JoiError) (m : Bool) :
    objGet (patternInner o path key item ps t es m).2.1 k = objGet t k := by
  rw [patternInner_noabort o path key item hab ps t es m]
  exact foldl_objSet_get_ne key _ k hne _ t

theorem patternsLoop_get_not_mem (o : Options) (path : List Key)
    (ps : List Pattern) (hab : o.abortEarly = false) (k : Key) :
    ∀ (ks : List Key) (t : JsObj) (unp es), ¬ k ∈ ks →
      objGet (patternsLoop o path ps ks t unp es).2.1 k = objGet t k := by
  intro ks
  induction ks with
  | nil => intro t unp es _; rfl
  | cons k0 krest ih =>
    intro t unp es h
    have hne : k ≠ k0 := fun he => h (by simp [he])
    have hkr : ¬ k ∈ krest := fun hm => h (by simp [hm])
    rw [patternsLoop,
      patternInner_noabort o path k0 (objGet t k0) hab ps t es false]
    rw [ih _ _ _ hkr]
    exact foldl_objSet_get_ne k0 _ k hne _ t

theorem patternsLoop_get (o : Options) (path : List Key) (ps : List Pattern)
    (hab : o.abortEarly = false) :
    ∀ (ks : List Key) (t : JsObj) (unp es) (k : Key), ks.Nodup → k ∈ ks →
      objGet (patternsLoop o path ps ks t unp es).2.1 k
        = (ps.filter (fun p => p.matcher k)).foldl
            (fun _ p => (p.rule.validate (objGet t k) (path ++ [k]) o).value)
            (objGet t k) := by
  intro ks
  induction ks with
  | nil => intro t unp es k _ hk; cases hk
  | cons k0 krest ih =>
    intro t unp es k hnd hk
    rw [patternsLoop,
      patternInner_noabort o path k0 (objGet t k0) hab ps t es false]
    rcases List.mem_cons.mp hk with hk0 | hkr
    · subst hk0
      have hk0r : ¬ k ∈ krest := (List.nodup_cons.mp hnd).1
      rw [patternsLoop_get_not_mem o path ps hab k krest _ _ _ hk0r]
      exact foldl_objSet_get_self k _ _ t
    · have hne : k ≠ k0 := fun he => (List.nodup_cons.mp hnd).1 (he ▸ hkr)
      rw [ih _ _ _ k (List.nodup_cons.mp hnd).2 hkr]
      rw [foldl_objSet_get_ne k0 _ k hne _ t]

theorem patternsLoop_errors (o : Options) (path : List Key) (ps : List Pattern)
    (hab : o.abortEarly = false) :
    ∀ (ks : List Key) (t : JsObj) (unp es), ks.Nodup →
      (patternsLoop o path ps ks t unp es).2.2.2
        = es ++ ks.flatMap (fun k =>
            (ps.filter (fun p => p.matcher k)).flatMap (fun p =>
              (p.rule.validate (objGet t k) (path ++ [k]) o).errors)) := by
  intro ks
  induction ks with
  | nil => intro t unp es _; simp [patternsLoop]
  | cons k0 krest ih =>
    intro t unp es hnd
    rw [patternsLoop,
      patternInner_noabort o path k0 (objGet t k0) hab ps t es false]
    rw [ih _ _ _ (List.nodup_cons.mp hnd).2]
    rw [List.flatMap_cons, ← List.append_assoc]
    congr 1
    apply List.flatMap_congr
    intro k hk
    have hne : k ≠ k0 := fun he => (List.nodup_cons.mp hnd).1 (he ▸ hk)
    rw [foldl_objSet_get_ne k0 _ k hne _ t]

theorem patternsLoop_unp (o : Options) (path : List Key) (ps : List Pattern)
    (hab : o.abortEarly = false) :
    ∀ (ks : List Key) (t : JsObj) (unp es), ks.Nodup →
      (patternsLoop o path ps ks t unp es).2.2.1
        = unp.filter (fun u =>
            !(ks.contains u && ps.any (fun p => p.matcher u))) := by
  intro ks
  induction ks with
  | nil => intro t unp es _; simp [patternsLoop]
  | cons k0 krest ih =>
    intro t unp es hnd
    rw [patternsLoop,
      patternInner_noabort o path k0 (objGet t k0) hab ps t es false]
    have hk0r : ¬ k0 ∈ krest := (List.nodup_cons.mp hnd).1
    by_cases hm : ps.any (fun p => p.matcher k0) = true
    · simp only [Bool.false_or, hm, if_true]
      rw [ih _ _ _ (List.nodup_cons.mp hnd).2, List.filter_filter]
      apply List.filter_congr
      intro u _
      by_cases hu : u = k0
      · subst hu
        simp [hm]
      · simp [hu, Ne.symm hu]
    · simp only [Bool.false_or, hm, Bool.false_eq_true, if_false]
      rw [ih _ _ _ (List.nodup_cons.mp hnd).2]
      apply List.filter_congr
      intro u _
      by_cases hu : u = k0
      · subst hu
        have : ¬ krest.contains u = true := by
          simpa using hk0r
        simp [hm, this]
      · simp [hu, Ne.symm hu]

theorem unknownPhase_get_not_unp (s : ObjectSchema) (o : Options)
    (path : List Key) (t : JsObj) (unp : List Key) (es : List JoiError)
    (k : Key) (h : ¬ k ∈ unp) :
    objGet (unknownPhase s o path t unp es).1 k = objGet t k := by
  rw [unknownPhase]
  split_ifs <;>
    first
    | rfl
    | exact foldl_objDelete_get_not_mem unp t k h

theorem unknownPhase_errors_sub (s : ObjectSchema) (o : Options)
    (path : List Key) (t : JsObj) (unp : List Key) (es : List JoiError)
    (e : JoiError) (h : e ∈ es) :
    e ∈ (unknownPhase s o path t unp es).2.2 := by
  rw [unknownPhase]
  split_ifs <;> first | exact h | exact List.mem_append_left _ h

/-- C10: with `abortEarly: false`, when a pattern's rule fails on an
unprocessed key, the rule's result value is still written back to that
key (the write is unconditional after the rule runs), and the rule's
errors are all reported. -/
theorem claim10_pattern_writeback (p : Pattern) (k : Key) (fields : JsObj)
    (o : Options) (path : List Key) (hab : o.abortEarly = false)
    (hmatch : p.matcher k = true) (hk : objHas fields k = true)
    (hnodup : (fields.map Prod.fst).Nodup) :
    ∃ out : JsObj,
      (objBase { patterns := [p] } path o (.obj fields)).value = .obj out ∧
      objGet out k
        = (p.rule.validate (objGet fields k) (path ++ [k]) o).value ∧
      ∀ e ∈ (p.rule.validate (objGet fields k) (path ++ [k]) o).errors,
        e ∈ (objBase { patterns := [p] } path o (.obj fields)).errors := by
  have hkeys : k ∈ fields.map Prod.fst := (objHas_iff_mem_keys fields k).mp hk
  have hne : (fields.map Prod.fst).isEmpty = false := by
    cases hx : fields.map Prod.fst with
    | nil => rw [hx] at hkeys; cases hkeys
    | cons _ _ => rfl
  have hpr : patternsRun { patterns := [p] } path o fields
      = patternsLoop o path [p] (fields.map Prod.fst) fields
          (fields.map Prod.fst) [] := by
    rw [patternsRun]
    simp [childrenRun, childrenOf, renameRun, renameLoop, childrenLoop,
      strippedRun, hne]
  have hunp3 : ¬ k ∈ (patternsRun { patterns := [p] } path o fields).2.2.1 := by
    rw [hpr, patternsLoop_unp o path [p] hab _ _ _ _ hnodup]
    intro hmem
    have := List.of_mem_filter hmem
    simp [hmatch, hkeys] at this
  have hget3 : objGet (patternsRun { patterns := [p] } path o fields).2.1 k
      = (p.rule.validate (objGet fields k) (path ++ [k]) o).value := by
    rw [hpr, patternsLoop_get o path [p] hab _ _ _ _ k hnodup hkeys]
    simp [List.filter_cons, hmatch]
  have hmem3 : ∀ e ∈ (p.rule.validate (objGet fields k) (path ++ [k]) o).errors,
      e ∈ (patternsRun { patterns := [p] } path o fields).2.2.2 := by
    intro e he
    rw [hpr, patternsLoop_errors o path [p] hab _ _ _ _ hnodup]
    apply List.mem_append_right
    apply List.mem_flatMap.mpr
    exact ⟨k, hkeys, List.mem_flatMap.mpr
      ⟨p, by simp [List.filter_cons, hmatch], he⟩⟩
  rw [objBase_pipeline _ path o fields hab]
  refine ⟨(unknownRun { patterns := [p] } path o fields).1, rfl, ?_, ?_⟩
  · rw [unknownRun]
    split_ifs
    · rw [unknownPhase_get_not_unp _ o path _ _ _ k hunp3]
      exact hget3
    · exact hget3
  · intro e he
    show e ∈ (unknownRun { patterns := [p] } path o fields).2.2
    rw [unknownRun]
    split_ifs
    · exact unknownPhase_errors_sub _ o path _ _ _ e (hmem3 e he)
    · exact hmem3 e he

theorem claim10_witness :
    ∃ out : JsObj,
      (objBase { patterns := [⟨fun k => k == "x", errValLeaf "pe" (.num 9)⟩] }
          [] { abortEarly := false } (.obj [("x", .num 0)])).value = .obj out ∧
      objGet out "x"
        = ((errValLeaf "pe" (.num 9)).validate (objGet [("x", .num 0)] "x")
            ([] ++ ["x"]) { abortEarly := false }).value ∧
      ∀ e ∈ ((errValLeaf "pe" (.num 9)).validate (objGet [("x", .num 0)] "x")
            ([] ++ ["x"]) { abortEarly := false }).errors,
        e ∈ (objBase { patterns :=
              [⟨fun k => k == "x", errValLeaf "pe" (.num 9)⟩] }
            [] { abortEarly := false } (.obj [("x", .num 0)])).errors :=
  claim10_pattern_writeback ⟨fun k => k == "x", errValLeaf "pe" (.num 9)⟩ "x"
    [("x", .num 0)] { abortEarly := false } [] rfl rfl rfl (by decide)

theorem unknownPhase_errors (s : ObjectSchema) (o : Options) (path : List Key)
    (t : JsObj) (unp : List Key) (es : List JoiError) :
    (unknownPhase s o path t unp es).2.2 = es ++ unknownNewErrs s o path unp := by
  rw [unknownPhase, unknownNewErrs]
  split_ifs <;> simp

theorem depsLoop_errors (o : Options) (path : List Key) (t : JsObj)
    (hab : o.abortEarly = false) :
    ∀ (ds : List Dep) (es : List JoiError),
      (depsLoop o path t ds es).2
        = es ++ ds.filterMap (fun d =>
            (depFailed d (depKeyValue d t) t).map (depError path d)) := by
  intro ds
  induction ds with
  | nil => intro es; simp [depsLoop]
  | cons d rest ih =>
    intro es
    rw [depsLoop]
    cases hd : depFailed d (depKeyValue d t) t with
    | none => rw [ih]; simp [List.filterMap_cons, hd]
    | some f =>
      simp only [hab, Bool.false_eq_true, if_false, ih,
        List.filterMap_cons, hd, Option.map_some]
      simp [List.append_assoc]

theorem childrenLoop_errors (o : Options) (path : List Key)
    (hab : o.abortEarly = false) :
    ∀ (cs : List ChildSpec) (st : ChState), (cs.map (fun c => c.key)).Nodup →
      (childrenLoop o path cs st).2.errors
        = st.errors ++ cs.flatMap (fun c =>
            (c.schema.validate (objGet st.target c.key)
              (path ++ [c.key]) o).errors) := by
  intro cs
  induction cs with
  | nil => intro st _; simp [childrenLoop]
  | cons c0 rest ih =>
    intro st hnd
    rw [List.map_cons] at hnd
    have hk0 : ¬ c0.key ∈ rest.map (fun c => c.key) := (List.nodup_cons.mp hnd).1
    have hnd2 := (List.nodup_cons.mp hnd).2
    rw [childrenLoop]
    by_cases he : (c0.schema.validate (objGet st.target c0.key)
        (path ++ [c0.key]) o).errors.isEmpty = true
    · simp only [he, if_true]
      have hez : (c0.schema.validate (objGet st.target c0.key)
          (path ++ [c0.key]) o).errors = [] := List.isEmpty_iff.mp he
      rw [List.flatMap_cons, hez, List.nil_append]
      split_ifs <;>
        first
        | (rw [ih _ hnd2]
           congr 1
           apply List.flatMap_congr
           intro c hc
           have hne : c.key ≠ c0.key := fun heq =>
             hk0 (heq ▸ List.mem_map.mpr ⟨c, hc, rfl⟩)
           rw [objGet_objSet_ne _ _ _ _ hne])
        | (rw [ih _ hnd2])
    · simp only [he, Bool.false_eq_true, if_false, hab]
      rw [ih _ hnd2]
      simp [List.append_assoc]

theorem keys_nodup_foldl_objDelete :
    ∀ (ks : List Key) (t : JsObj), (t.map Prod.fst).Nodup →
      (((ks.foldl objDelete t)).map Prod.fst).Nodup := by
  intro ks
  induction ks with
  | nil => intro t h; exact h
  | cons k0 krest ih =>
    intro t h
    exact ih _ (keys_nodup_objDelete t k0 h)

theorem renameStepLit_nodup (o : Options) (path : List Key) (ro : RenameOpts)
    (fromK toK : Key) (renamed : List Key) (t : JsObj) (es : List JoiError)
    (h : (t.map Prod.fst).Nodup) :
    (((renameStepLit o path ro fromK toK renamed t es).2.2.1).map Prod.fst).Nodup := by
  rw [renameStepLit]
  dsimp only
  split_ifs <;>
    first
    | exact h
    | exact keys_nodup_objDelete _ _ (keys_nodup_objDelete _ _ h)
    | exact keys_nodup_objDelete _ _ (keys_nodup_objSet _ _ _ h)
    | exact keys_nodup_objDelete _ _ h
    | exact keys_nodup_objSet _ _ _ h

theorem renameStepPat_nodup (o : Options) (path : List Key) (ro : RenameOpts)
    (test : Key → Bool) (toK : Key) (renamed : List Key) (t : JsObj)
    (es : List JoiError) (h : (t.map Prod.fst).Nodup) :
    (((renameStepPat o path ro test toK renamed t es).2.2.1).map Prod.fst).Nodup := by
  have hfold : ∀ (ks : List Key) (t0 : JsObj), (t0.map Prod.fst).Nodup →
      ((ks.foldl (fun acc k => if k = toK then acc else objDelete acc k) t0).map
        Prod.fst).Nodup := by
    intro ks
    induction ks with
    | nil => intro t0 h0; exact h0
    | cons k0 krest ih =>
      intro t0 h0
      simp only [List.foldl_cons]
      by_cases hk : k0 = toK
      · simp only [hk, if_true]
        exact ih _ h0
      · simp only [hk, if_false]
        exact ih _ (keys_nodup_objDelete t0 k0 h0)
  rw [renameStepPat]
  dsimp only
  split_ifs <;>
    first
    | exact h
    | exact hfold _ _ (keys_nodup_objDelete _ _ h)
    | (apply hfold
       cases hx : ((t.map Prod.fst).filter test).getLast? with
       | none => exact h
       | some lastK => exact keys_nodup_objSet _ _ _ h)
    | exact keys_nodup_objDelete _ _ h
    | (cases hx : ((t.map Prod.fst).filter test).getLast? with
       | none => exact h
       | some lastK => exact keys_nodup_objSet _ _ _ h)

theorem renameLoop_nodup (o : Options) (path : List Key) :
    ∀ (rs : List Rename) (renamed : List Key) (t : JsObj) (es : List JoiError),
      (t.map Prod.fst).Nodup →
      (((renameLoop o path rs renamed t es).2.1).map Prod.fst).Nodup := by
  intro rs
  induction rs with
  | nil => intro renamed t es h; exact h
  | cons r rest ih =>
    intro renamed t es h
    rw [renameLoop]
    cases hf : r.rfrom with
    | lit fromK =>
      rcases hstep : renameStepLit o path r.ropts fromK r.rto renamed t es
        with ⟨ok, ren1, t1, es1⟩
      have hnd := renameStepLit_nodup o path r.ropts fromK r.rto renamed t es h
      rw [hstep] at hnd
      cases ok
      · simpa [hstep] using hnd
      · simpa [hstep] using ih ren1 t1 es1 hnd
    | pat test =>
      rcases hstep : renameStepPat o path r.ropts test r.rto renamed t es
        with ⟨ok, ren1, t1, es1⟩
      have hnd := renameStepPat_nodup o path r.ropts test r.rto renamed t es h
      rw [hstep] at hnd
      cases ok
      · simpa [hstep] using hnd
      · simpa [hstep] using ih ren1 t1 es1 hnd

theorem childrenLoop_unp_nodup (o : Options) (path : List Key) :
    ∀ (cs : List ChildSpec) (st : ChState), st.unprocessed.Nodup →
      (childrenLoop o path cs st).2.unprocessed.Nodup := by
  intro cs
  induction cs with
  | nil => intro st h; exact h
  | cons c0 rest ih =>
    intro st h
    rw [childrenLoop]
    split_ifs <;>
      first
      | exact h.filter _
      | exact ih _ (h.filter _)

/-- C5 amended: with `abortEarly: false` the errors of `_base` are
exactly the concatenation, in pipeline order, of the rename errors, each
declared field's own validation errors, each matching pattern's errors
per leftover key, one `object.allowUnknown` error per forbidden unknown
key, and one error per failed dependency — no phase stops early and no
field's failure suppresses a sibling.  (With `abortEarly: true` `_base`
can still return several errors: the unknown-key loop never stops, see
the counterexample.) -/
theorem claim5_amended (s : ObjectSchema) (o : Options) (path : List Key)
    (fields : JsObj) (hab : o.abortEarly = false)
    (hnodupf : (fields.map Prod.fst).Nodup)
    (hnodupc : ((childrenOf s).map (fun c => c.key)).Nodup) :
    (objBase s path o (.obj fields)).errors
      = (renameRun s path o fields).2.2
        ++ (childrenOf s).flatMap (fun c =>
            (c.schema.validate (objGet (renameRun s path o fields).2.1 c.key)
              (path ++ [c.key]) o).errors)
        ++ (childrenRun s path o fields).2.unprocessed.flatMap (fun k =>
            (s.patterns.filter (fun p => p.matcher k)).flatMap (fun p =>
              (p.rule.validate (objGet (strippedRun s path o fields) k)
                (path ++ [k]) o).errors))
        ++ (if (!(patternsRun s path o fields).2.2.1.isEmpty
              && (s.children.isSome || !s.patterns.isEmpty)) = true then
            unknownNewErrs s o path (patternsRun s path o fields).2.2.1
          else [])
        ++ s.dependencies.filterMap (fun d =>
            (depFailed d (depKeyValue d (unknownRun s path o fields).1)
              (unknownRun s path o fields).1).map (depError path d)) := by
  have hnd1 : (((renameRun s path o fields).2.1).map Prod.fst).Nodup := by
    rw [renameRun]
    exact renameLoop_nodup o path s.renames [] fields [] hnodupf
  have hndunp : (childrenRun s path o fields).2.unprocessed.Nodup := by
    rw [childrenRun]
    exact childrenLoop_unp_nodup o path (childrenOf s) _ hnd1
  have h5 : (childrenRun s path o fields).2.errors
      = (renameRun s path o fields).2.2
        ++ (childrenOf s).flatMap (fun c =>
            (c.schema.validate (objGet (renameRun s path o fields).2.1 c.key)
              (path ++ [c.key]) o).errors) := by
    rw [childrenRun, childrenLoop_errors o path hab (childrenOf s) _ hnodupc]
  have h4 : (patternsRun s path o fields).2.2.2
      = (childrenRun s path o fields).2.errors
        ++ (childrenRun s path o fields).2.unprocessed.flatMap (fun k =>
            (s.patterns.filter (fun p => p.matcher k)).flatMap (fun p =>
              (p.rule.validate (objGet (strippedRun s path o fields) k)
                (path ++ [k]) o).errors)) := by
    rw [patternsRun]
    split_ifs with hg
    · exact patternsLoop_errors o path s.patterns hab _ _ _ _ hndunp
    · have hgf : (!(childrenRun s path o fields).2.unprocessed.isEmpty
          && !s.patterns.isEmpty) = false := Bool.eq_false_iff.mpr hg
      rcases Bool.and_eq_false_iff.mp hgf with hg1 | hg2
      · have hun : (childrenRun s path o fields).2.unprocessed = [] :=
          List.isEmpty_iff.mp (by simpa using hg1)
        simp [hun]
      · have hps : s.patterns = [] := List.isEmpty_iff.mp (by simpa using hg2)
        simp [hps]
  have h3 : (unknownRun s path o fields).2.2
      = (patternsRun s path o fields).2.2.2
        ++ (if (!(patternsRun s path o fields).2.2.1.isEmpty
              && (s.children.isSome || !s.patterns.isEmpty)) = true then
            unknownNewErrs s o path (patternsRun s path o fields).2.2.1
          else []) := by
    rw [unknownRun]
    split_ifs with hg
    · exact unknownPhase_errors s o path _ _ _
    · simp
  rw [objBase_pipeline s path o fields hab]
  show (depsLoop o path (unknownRun s path o fields).1 s.dependencies
      (unknownRun s path o fields).2.2).2 = _
  rw [depsLoop_errors o path _ hab, h3, h4, h5]

theorem claim5_witness :
    (objBase (onlyASchema none) [] { abortEarly := false }
        (.obj [("a", .num 1), ("c", .num 2)])).errors
      = (renameRun (onlyASchema none) [] { abortEarly := false }
          [("a", .num 1), ("c", .num 2)]).2.2
        ++ (childrenOf (onlyASchema none)).flatMap (fun c =>
            (c.schema.validate
              (objGet (renameRun (onlyASchema none) [] { abortEarly := false }
                [("a", .num 1), ("c", .num 2)]).2.1 c.key)
              ([] ++ [c.key]) { abortEarly := false }).errors)
        ++ (childrenRun (onlyASchema none) [] { abortEarly := false }
            [("a", .num 1), ("c", .num 2)]).2.unprocessed.flatMap (fun k =>
            ((onlyASchema none).patterns.filter (fun p => p.matcher k)).flatMap
              (fun p => (p.rule.validate
                (objGet (strippedRun (onlyASchema none) [] { abortEarly := false }
                  [("a", .num 1), ("c", .num 2)]) k)
                ([] ++ [k]) { abortEarly := false }).errors))
        ++ (if (!(patternsRun (onlyASchema none) [] { abortEarly := false }
              [("a", .num 1), ("c", .num 2)]).2.2.1.isEmpty
              && ((onlyASchema none).children.isSome
                || !(onlyASchema none).patterns.isEmpty)) = true then
            unknownNewErrs (onlyASchema none) { abortEarly := false } []
              (patternsRun (onlyASchema none) [] { abortEarly := false }
                [("a", .num 1), ("c", .num 2)]).2.2.1
          else [])
        ++ (onlyASchema none).dependencies.filterMap (fun d =>
            (depFailed d
              (depKeyValue d (unknownRun (onlyASchema none) []
                { abortEarly := false } [("a", .num 1), ("c", .num 2)]).1)
              (unknownRun (onlyASchema none) [] { abortEarly := false }
                [("a", .num 1), ("c", .num 2)]).1).map (depError [] d)) :=
  claim5_amended (onlyASchema none) { abortEarly := false } []
    [("a", .num 1), ("c", .num 2)] rfl (by decide) (by decide)
